import Mathlib

/-! makesnps: a shallow embedding of `makesnps.c`

The program reads a single-record FASTA reference, samples SNP positions by
rejection against a minimum-distance rule, and writes a mutated copy of the
reference together with a CSV ledger of the substitutions.

Conventions of the embedding

* `int` values are `Int`, `unsigned int` values are `Nat`; the conversions and
  the unsigned subtraction of C are explicit (`to_unsigned`, `to_int`, `usub`).
* the global table `snp_position[MAX_SNPS]` together with `n_snps` is the list
  of its first `n_snps` entries; `n_snps` is the length of that list.
* `random()` is a list of draws that the code consumes from the front; a loop
  that needs a draw when none is left has not returned.
* `exit(1)` and arithmetic faults are explicit results.
-/

namespace Makesnps

/-! ## Machine integers -/

/-- The `MAX_SNPS` constant. -/
def MAX_SNPS : Nat := 10000

/-- Conversion of an `int` to `unsigned int` (value modulo 2^32). -/
def to_unsigned (x : Int) : Nat := (x % 4294967296).toNat

/-- Conversion of an `unsigned int` to `int` (two's complement). -/
def to_int (u : Nat) : Int :=
  if u % 4294967296 < 2147483648 then ((u % 4294967296 : Nat) : Int)
  else ((u % 4294967296 : Nat) : Int) - 4294967296

/-- Result of an `int` operation brought back into the range of `int`. -/
def wrap_int (x : Int) : Int := (x + 2147483648) % 4294967296 - 2147483648

/-- Subtraction of two `unsigned int` values. -/
def usub (a b : Nat) : Nat := (a % 4294967296 + 4294967296 - b % 4294967296) % 4294967296

/-! ## position_ok -/

/-- The search loop of `position_ok`:
`for (i=0; i<n_snps; i++) if (snp_position[i] > p) break;`.
The comparison is between `unsigned int` and `int`, hence unsigned.
Called on the entries from index `i` on; gives the value of `i` after the loop. -/
def position_ok_scan (p : Int) : List Nat → Nat → Nat
  | [], i => i
  | x :: xs, i => if x > to_unsigned p then i else position_ok_scan p xs (i + 1)

/-- The function `position_ok`: 1 when the proposed position `p` is accepted
against the table `snp_position` and the minimum distance
`min_distance_between`, 0 otherwise.  Every difference is an `unsigned int`
and is compared with `min_distance_between` converted to `unsigned int`. -/
def position_ok (snp_position : List Nat) (min_distance_between : Int) (p : Int) : Nat :=
  let n_snps := snp_position.length
  if n_snps = 0 then 1
  else
    let i := position_ok_scan p snp_position 0
    if i = n_snps then
      if usub (to_unsigned p) (snp_position.getD (n_snps - 1) 0)
          ≥ to_unsigned min_distance_between then 1 else 0
    else if i = 0 then
      if usub (snp_position.getD 0 0) (to_unsigned p)
          ≥ to_unsigned min_distance_between then 1 else 0
    else
      if usub (snp_position.getD i 0) (to_unsigned p) ≥ to_unsigned min_distance_between
          ∧ usub (to_unsigned p) (snp_position.getD (i - 1) 0)
              ≥ to_unsigned min_distance_between then 1 else 0

/-! ## compare, qsort, make_snps -/

/-- The comparison function handed to `qsort`: both entries are read as `int`
and subtracted. -/
def compare (a b : Nat) : Int := wrap_int (to_int a - to_int b)

/-- The library routine `qsort` with the comparison function `compare`:
a sort of the table that puts `a` before `b` when `compare a b ≤ 0`. -/
def qsort (xs : List Nat) : List Nat :=
  xs.insertionSort (fun a b => compare a b ≤ 0)

/-- How far a run of `make_snps` got on a finite list of draws. -/
inductive Run where
  /-- The outer loop finished: the table and the unread draws. -/
  | returned (snp_position : List Nat) (rest : List Nat)
  /-- Every draw was read and the rejection loop is still asking for one:
  the table so far and the number of positions still to insert. -/
  | waiting (snp_position : List Nat) (todo : Nat)
  /-- The draw `random() % reference_size` was evaluated with `reference_size = 0`. -/
  | div_by_zero (snp_position : List Nat)
  deriving DecidableEq

/-- The position table held at the end of a run. -/
def Run.table : Run → List Nat
  | .returned t _ => t
  | .waiting t _ => t
  | .div_by_zero t => t

/-- The loops of `make_snps`, with `todo = n_snps_to_insert - i` iterations of
the outer loop left.  Each draw `r` gives `p = random() % reference_size`;
a rejected `p` repeats the inner loop, an accepted one is stored at
`snp_position[n_snps++]` and the table is sorted again. -/
def make_snps_loop (reference_size : Int) (min_distance_between : Int) :
    Nat → List Nat → List Nat → Run
  | 0, draws, snp_position => .returned snp_position draws
  | todo + 1, [], snp_position =>
    if reference_size = 0 then .div_by_zero snp_position else .waiting snp_position (todo + 1)
  | todo + 1, r :: draws, snp_position =>
    if reference_size = 0 then .div_by_zero snp_position
    else
      let p : Int := Int.tmod (r : Int) reference_size
      if position_ok snp_position min_distance_between p = 0 then
        make_snps_loop reference_size min_distance_between (todo + 1) draws snp_position
      else
        make_snps_loop reference_size min_distance_between todo draws
          (qsort (snp_position ++ [to_unsigned p]))

/-- The function `make_snps`, started on the table `snp_position` (empty in `main`). -/
def make_snps (reference_size : Int) (n_snps_to_insert : Int) (min_distance_between : Int)
    (draws : List Nat) (snp_position : List Nat) : Run :=
  make_snps_loop reference_size min_distance_between n_snps_to_insert.toNat draws snp_position

/-! ## The invariant of the sampler -/

/-- The table is ascending, its entries are below `L`, and any two entries are at
least `D` apart. -/
def table_inv (L D : Int) (t : List Nat) : Prop :=
  t.Sorted (· ≤ ·) ∧ (∀ q ∈ t, (q : Int) < L) ∧
    t.Pairwise (fun (a b : Nat) => D ≤ |(b : Int) - (a : Int)|)

/-! ## read_reference -/

/-- The library routine `toupper` in the C locale. -/
def toupper (c : Char) : Char :=
  if 97 ≤ c.toNat ∧ c.toNat ≤ 122 then Char.ofNat (c.toNat - 32) else c

/-- The function `is_nucleotide`: 1 if `c` is A, C, G or T in either case, 0 otherwise. -/
def is_nucleotide (c : Char) : Nat :=
  let u := toupper c
  if u = 'A' ∨ u = 'C' ∨ u = 'G' ∨ u = 'T' then 1 else 0

/-- The value stored in `char c` when `fgetc` returns `EOF`. -/
def EOF_char : Char := Char.ofNat 255

/-- The reading loop of the library routine `fgets`, with room for `n` more
characters: the characters read, the unread text, and whether the end of the
file was hit. -/
def fgets_loop : Nat → List Char → List Char × List Char × Bool
  | 0, cs => ([], cs, false)
  | _ + 1, [] => ([], [], true)
  | n + 1, c :: cs =>
    if c = '\n' then ([c], cs, false)
    else
      let r := fgets_loop n cs
      (c :: r.1, r.2.1, r.2.2)

/-- The library routine `fgets(line, size, fp)`: at most `size - 1` characters,
stopping after a newline; `none` (a null pointer) when the end of the file is
hit before any character is read. -/
def fgets (size : Nat) (unread : List Char) : Option (List Char) × List Char × Bool :=
  let r := fgets_loop (size - 1) unread
  if r.1 = [] ∧ r.2.2 = true then (none, r.2.1, r.2.2) else (some r.1, r.2.1, r.2.2)

/-- What `read_reference` leaves behind. -/
inductive Loaded where
  /-- The call `exit(status)` after printing `message`. -/
  | exit (status : Nat) (message : String)
  /-- The buffer `reference[0..index)` and the value given to `reference_size`. -/
  | ok (reference : List Char) (reference_size : Int)
  deriving DecidableEq

/-- The body of the reading loop of `read_reference` for one character `c`:
`none` when `c` is a second header marker, otherwise the reference buffer,
with `toupper(c)` stored at `reference[index++]` when `c` is a nucleotide. -/
def read_reference_char (c : Char) (reference : List Char) : Option (List Char) :=
  if c = '>' then none
  else if is_nucleotide c ≠ 0 then some (reference ++ [toupper c])
  else some reference

/-- The end of `read_reference`: `reference_size = index`, an `int`. -/
def read_reference_finish (reference : List Char) : Loaded :=
  .ok reference (wrap_int (reference.length : Int))

/-- The loop `while (!feof(fp))` of `read_reference` on the unread text, the
end-of-file indicator and the buffer filled so far.  At the end of the text
`fgetc` returns `EOF`, which goes through the loop body as a character once. -/
def read_reference_loop : List Char → Bool → List Char → Loaded
  | _, true, reference => read_reference_finish reference
  | [], false, reference =>
    match read_reference_char EOF_char reference with
    | none => .exit 1 "Error: File should only have 1 sequence in it."
    | some reference => read_reference_finish reference
  | c :: cs, false, reference =>
    match read_reference_char c reference with
    | none => .exit 1 "Error: File should only have 1 sequence in it."
    | some reference => read_reference_loop cs false reference

/-- The function `read_reference` on the text of the input file (the file
could be opened and the buffer allocated). -/
def read_reference (text : List Char) : Loaded :=
  match fgets 1024 text with
  | (none, _, _) => .exit 1 "Error: Couldn't get header line."
  | (some line, unread, eof) =>
    if line.head? ≠ some '>' then .exit 1 "Error: File should begin with FASTA header."
    else read_reference_loop unread eof []

/-! ## make_snp and write_output_files -/

/-- The table `nucleotides` of `make_snp`. -/
def nucleotides : List Char := ['A', 'C', 'G', 'T']

/-- One row of the SNP list file, written by `fprintf(csv_fp, "%i,%c,%c\n", ...)`. -/
structure CsvRow where
  position : Int
  reference : Char
  snp : Char
  deriving DecidableEq

/-- The loop of `make_snp`:
`do { new_n = nucleotides[random() % 4]; } while (new_n == current_n);`.
Gives `new_n` and the unread draws, or `none` when the draws run out first. -/
def make_snp_loop (current_n : Char) : List Nat → Option (Char × List Nat)
  | [] => none
  | r :: draws =>
    let new_n := nucleotides.getD (r % 4) 'A'
    if new_n = current_n then make_snp_loop current_n draws else some (new_n, draws)

/-- The function `make_snp`: the SNP nucleotide, the row written to the SNP
list file and the unread draws. -/
def make_snp (position : Int) (current_n : Char) (draws : List Nat) :
    Option (Char × CsvRow × List Nat) :=
  match make_snp_loop current_n draws with
  | none => none
  | some (new_n, rest) => some (new_n, ⟨position, current_n, new_n⟩, rest)

/-- What `write_output_files` has written. -/
structure Written where
  /-- The string printed by `">%s\n"` on the first line of the output file
  (`none` for a null pointer). -/
  out_id : Option (List Char)
  /-- The characters written to the output file after its first line. -/
  out_body : List Char
  /-- The first line of the SNP list file. -/
  csv_header : String
  /-- The rows of the SNP list file after its first line. -/
  csv_rows : List CsvRow
  /-- The unread draws. -/
  rest : List Nat
  deriving DecidableEq

/-- The test `(snp_pos < n_snps) && (p == snp_position[snp_pos])` of
`write_output_files` and the call of `make_snp` it guards, for the reference
symbol `x` at position `p`: the nucleotide to write, the rows put on the SNP
list file, the new value of `snp_pos` and the unread draws. -/
def write_output_symbol (snp_position : List Nat) (x : Char) (p snp_pos : Nat)
    (draws : List Nat) : Option (Char × List CsvRow × Nat × List Nat) :=
  if snp_pos < snp_position.length ∧ to_unsigned (p : Int) = snp_position.getD snp_pos 0 then
    match make_snp (to_int (snp_position.getD snp_pos 0)) x draws with
    | none => none
    | some (new_n, row, rest) => some (new_n, [row], snp_pos + 1, rest)
  else some (x, [], snp_pos, draws)

/-- The end of the loop body of `write_output_files`:
`c++; if (c == column_width) { fputc('\n', out_fp); c = 0; }`.
The characters written and the new value of `c`. -/
def line_break (column_width c : Int) : List Char × Int :=
  if wrap_int (c + 1) = column_width then (['\n'], 0) else ([], wrap_int (c + 1))

/-- The loop `for (p=0; p<reference_size; p++)` of `write_output_files`, on the
symbols `reference[p..reference_size)`, with the loop variables `p`, `snp_pos`
and `c`: the characters put on the output file, the rows put on the SNP list
file and the unread draws. -/
def write_output_loop (snp_position : List Nat) (column_width : Int) :
    List Char → Nat → Nat → Int → List Nat → Option (List Char × List CsvRow × List Nat)
  | [], _, _, _, draws => some ([], [], draws)
  | x :: reference, p, snp_pos, c, draws =>
    match write_output_symbol snp_position x p snp_pos draws with
    | none => none
    | some (nucleotide, rows, snp_pos, draws) =>
      match write_output_loop snp_position column_width reference (p + 1) snp_pos
          (line_break column_width c).2 draws with
      | none => none
      | some (out, csv, rest) =>
        some (nucleotide :: (line_break column_width c).1 ++ out, rows ++ csv, rest)

/-- The function `write_output_files` (both files could be opened); the buffer
`reference` holds `reference_size` symbols. -/
def write_output_files (output_id : Option (List Char)) (reference : List Char)
    (snp_position : List Nat) (column_width : Int) (draws : List Nat) : Option Written :=
  match write_output_loop snp_position column_width reference 0 0 0 draws with
  | none => none
  | some (out, csv, rest) => some ⟨output_id, out, "Position,Reference,SNP", csv, rest⟩

/-! ## Command line -/

/-- The global variables set from the command line, with their initial values. -/
structure Globals where
  input_filename : Option (List Char) := none
  output_filename : Option (List Char) := none
  snp_list_filename : Option (List Char) := none
  output_id : Option (List Char) := none
  n_snps_to_insert : Int := 1000
  min_distance_between : Int := 100
  column_width : Int := 70
  default_id : Option (List Char) := some "makesnps".toList
  deriving DecidableEq

/-- The library routine `isspace` in the C locale. -/
def isspace (c : Char) : Bool :=
  c = ' ' ∨ (9 ≤ c.toNat ∧ c.toNat ≤ 13)

/-- The digits read by `atoi`, accumulated from `acc`. -/
def atoi_digits : List Char → Int → Int
  | [], acc => acc
  | c :: cs, acc =>
    if 48 ≤ c.toNat ∧ c.toNat ≤ 57 then atoi_digits cs (acc * 10 + ((c.toNat : Int) - 48))
    else acc

/-- The constant `LONG_MAX` of the library (`long` has 64 bits). -/
def LONG_MAX : Int := 9223372036854775807

/-- The constant `LONG_MIN` of the library. -/
def LONG_MIN : Int := -9223372036854775808

/-- The result of the library routine `strtol` for the number `x` that the
text spells: a number outside the range of `long` is replaced by `LONG_MAX`
or `LONG_MIN`. -/
def strtol_result (x : Int) : Int :=
  if x > LONG_MAX then LONG_MAX else if x < LONG_MIN then LONG_MIN else x

/-- The library routine `atoi`, which is `(int) strtol(s, NULL, 10)`: leading
white space, an optional sign, then decimal digits (0 when there is no
digit); the `long` result is converted to `int`. -/
def atoi (s : List Char) : Int :=
  match s.dropWhile isspace with
  | '-' :: cs => wrap_int (strtol_result (-(atoi_digits cs 0)))
  | '+' :: cs => wrap_int (strtol_result (atoi_digits cs 0))
  | cs => wrap_int (strtol_result (atoi_digits cs 0))

/-- The function `parse_string`: the token (or `none` for a null pointer) and
the updated argument counter `*i`. -/
def parse_string (argv : List (List Char)) (i : Nat) : Option (List Char) × Nat :=
  let argc : Int := argv.length
  let r : Option (List Char) × Nat :=
    if (argv.getD i []).length > 2 then (some ((argv.getD i []).drop 2), i)
    else if (i : Int) < argc - 1 then (some (argv.getD (i + 1) []), i + 1)
    else (none, i)
  match r.1 with
  | some token => if token.head? = some '-' then (none, r.2) else (some token, r.2)
  | none => (none, r.2)

/-- The function `parse_int`: the number (−1 without a token) and the updated
argument counter `*i`. -/
def parse_int (argv : List (List Char)) (i : Nat) : Int × Nat :=
  let r := parse_string argv i
  match r.1 with
  | some token => (atoi token, r.2)
  | none => (-1, r.2)

/-- What `parse_command_line_args` leaves behind, with the lines it printed
(the usage text is represented by its first line). -/
inductive Parsed where
  /-- The call `exit(status)`. -/
  | exit (status : Nat) (printed : List String)
  /-- The function returned with these global variables. -/
  | returned (g : Globals) (printed : List String)
  deriving DecidableEq

/-- The checks made by `parse_command_line_args` after its loop. -/
def parse_finish (g : Globals) : Parsed :=
  if g.input_filename = none then
    .exit 1 ["Error: You must specify an input file."]
  else if g.output_filename = none then
    .exit 1 ["Error: You must specify an output file."]
  else
    let printed : List String :=
      if g.snp_list_filename = none then ["Error: You must specify a SNP list filename."]
      else []
    let g : Globals :=
      if g.output_id = none then { g with default_id := g.output_id } else g
    .returned g printed

/-- The loop `while (i < argc)` of `parse_command_line_args`; every iteration
advances `i`, so `fuel = argc` iterations are never used up. -/
def parse_loop (argv : List (List Char)) : Nat → Nat → Globals → Parsed
  | 0, _, g => parse_finish g
  | fuel + 1, i, g =>
    if i < argv.length then
      let parameter := argv.getD i []
      if parameter.head? = some '-' then
        match parameter.getD 1 (Char.ofNat 0) with
        | 'c' =>
          let r := parse_string argv i
          parse_loop argv fuel (r.2 + 1) { g with snp_list_filename := r.1 }
        | 'i' =>
          let r := parse_string argv i
          parse_loop argv fuel (r.2 + 1) { g with input_filename := r.1 }
        | 'm' =>
          let r := parse_int argv i
          parse_loop argv fuel (r.2 + 1) { g with min_distance_between := r.1 }
        | 'n' =>
          let r := parse_int argv i
          if r.1 < 1 ∨ r.1 > (MAX_SNPS : Int) then
            .exit 1 ["Error: number of SNPs must be between 1 and 10000."]
          else parse_loop argv fuel (r.2 + 1) { g with n_snps_to_insert := r.1 }
        | 'o' =>
          let r := parse_string argv i
          parse_loop argv fuel (r.2 + 1) { g with output_filename := r.1 }
        | 's' =>
          let r := parse_string argv i
          parse_loop argv fuel (r.2 + 1) { g with output_id := r.1 }
        | 'w' =>
          let r := parse_int argv i
          parse_loop argv fuel (r.2 + 1) { g with column_width := r.1 }
        | _ => .exit 1 ["Error: Invalid parameter"]
      else parse_loop argv fuel (i + 1) g
    else parse_finish g

/-- The function `parse_command_line_args` on the argument vector `argv`
(`argv[0]` is the program name), started from the initial global variables. -/
def parse_command_line_args (argv : List (List Char)) : Parsed :=
  if argv.length < 4 then
    .exit 1 ["Syntax: makesnps [-i filename] [-o filename] [-c filename] [options]"]
  else parse_loop argv argv.length 1 {}

/-! ## display_snp_stats -/

/-- What `display_snp_stats` does. -/
inductive Stats where
  /-- The division `snp_position[i] / bin_size` was evaluated with `bin_size = 0`. -/
  | div_by_zero
  /-- The statement `bins[b]++` was reached with `b` outside the array `bins[10]`. -/
  | out_of_range (b : Int)
  /-- The ten counts printed, and the distances printed by the final check
  (those below `min_distance_between`). -/
  | shown (bins : List Int) (short : List Int)
  deriving DecidableEq

/-- The counting loop of `display_snp_stats`:
`for (i=0; i<n_snps; i++) { b = snp_position[i] / bin_size; bins[b]++; }`.
The division is between `unsigned int` and `int`, hence unsigned. -/
def display_snp_stats_count (bin_size : Int) : List Nat → List Int → Stats
  | [], bins => .shown bins []
  | q :: rest, bins =>
    if to_unsigned bin_size = 0 then .div_by_zero
    else
      let b := to_int (q % 4294967296 / to_unsigned bin_size)
      if 0 ≤ b ∧ b < 10 then
        display_snp_stats_count bin_size rest
          (bins.set b.toNat (wrap_int (bins.getD b.toNat 0 + 1)))
      else .out_of_range b

/-- The final loop of `display_snp_stats` after the entry `previous`:
`int d = snp_position[i] - snp_position[i-1]; if (d < min_distance_between) printf(...)`. -/
def display_snp_stats_short (min_distance_between : Int) : Nat → List Nat → List Int
  | _, [] => []
  | previous, q :: rest =>
    if to_int (usub q previous) < min_distance_between then
      to_int (usub q previous) :: display_snp_stats_short min_distance_between q rest
    else display_snp_stats_short min_distance_between q rest

/-- The function `display_snp_stats`, with `n_bins = 10` and
`bin_size = reference_size / n_bins`. -/
def display_snp_stats (reference_size : Int) (snp_position : List Nat)
    (min_distance_between : Int) : Stats :=
  match display_snp_stats_count (Int.tdiv reference_size 10) snp_position
      (List.replicate 10 0) with
  | .shown bins _ =>
    .shown bins
      (match snp_position with
        | [] => []
        | q :: rest => display_snp_stats_short min_distance_between q rest)
  | r => r

/-! ## Definitions that follow the specification -/

/-- The insertion index of the specification: every accepted position before
index `i` is below `p`, every accepted position at or after `i` is at least `p`. -/
def is_insertion_index (accepted : List Nat) (p : Int) (i : Nat) : Prop :=
  i ≤ accepted.length ∧ (∀ k, k < i → (accepted.getD k 0 : Int) < p) ∧
    (∀ k, k < accepted.length → i ≤ k → p ≤ (accepted.getD k 0 : Int))

instance (accepted : List Nat) (p : Int) (i : Nat) :
    Decidable (is_insertion_index accepted p i) := by
  unfold is_insertion_index; infer_instance

/-- The acceptance rule of the specification at insertion index `i`:
(a) the set is empty, or (b) `i` is the size and `p − last ≥ D`, or
(c) `i = 0` and `first − p ≥ D`, or (d) `0 < i < size` and both
`accepted[i] − p ≥ D` and `p − accepted[i−1] ≥ D`, in the integers. -/
def accept_rule (accepted : List Nat) (D p : Int) (i : Nat) : Prop :=
  accepted = [] ∨
  (i = accepted.length ∧ D ≤ p - (accepted.getD (accepted.length - 1) 0 : Int)) ∨
  (i = 0 ∧ D ≤ (accepted.getD 0 0 : Int) - p) ∨
  (0 < i ∧ i < accepted.length ∧ D ≤ (accepted.getD i 0 : Int) - p
    ∧ D ≤ p - (accepted.getD (i - 1) 0 : Int))

instance (accepted : List Nat) (D p : Int) (i : Nat) :
    Decidable (accept_rule accepted D p i) := by
  unfold accept_rule; infer_instance

/-- The header line of an input text: its characters up to and including the
first newline (the whole text when it has no newline). -/
def header_line : List Char → List Char
  | [] => []
  | c :: cs => if c = '\n' then [c] else c :: header_line cs

/-- The body of an input text: what follows its first newline. -/
def body_of : List Char → List Char
  | [] => []
  | c :: cs => if c = '\n' then cs else body_of cs

/-- The letters that count as nucleotides in an input text. -/
def nucleotide_letters : List Char := ['A', 'C', 'G', 'T', 'a', 'c', 'g', 't']

/-- The symbols `syms` laid out in lines of `W` symbols: a line break follows
each symbol that completes a line, `c` symbols standing on the current line
already. -/
def wrap_col (W c : Nat) : List Char → List Char
  | [] => []
  | x :: xs =>
    if c + 1 = W then x :: '\n' :: wrap_col W 0 xs else x :: wrap_col W (c + 1) xs

/-- The number that a string of decimal digits spells, continued from `acc`. -/
def decimal_from : List Char → Nat → Nat
  | [], acc => acc
  | c :: cs, acc => decimal_from cs (acc * 10 + (c.toNat - 48))

/-- The number that a string of decimal digits spells. -/
def decimal_value (digits : List Char) : Nat := decimal_from digits 0

/-- The substitutions that turn the symbols `reference` into the symbols
`written`, the first of them standing at position `p`: one row (position,
reference symbol, written symbol) for every position at which the two differ,
in ascending order of position. -/
def differences : Nat → List Char → List Char → List CsvRow
  | p, x :: reference, y :: written =>
    if x = y then differences (p + 1) reference written
    else ⟨(p : Int), x, y⟩ :: differences (p + 1) reference written
  | _, _, _ => []

/-- The symbols of an output text, ignoring its line breaks. -/
def symbols_of (out : List Char) : List Char :=
  out.filter (fun ch => decide (ch ≠ '\n'))

/-! ## Facts about the machine-integer helpers -/

theorem to_unsigned_of_range {x : Int} (h0 : 0 ≤ x) (h1 : x < 4294967296) :
    (to_unsigned x : Int) = x := by
  unfold to_unsigned
  rw [Int.emod_eq_of_lt h0 h1]
  exact Int.toNat_of_nonneg h0

theorem to_unsigned_lt (x : Int) : to_unsigned x < 4294967296 := by
  unfold to_unsigned
  have h := Int.emod_lt_of_pos x (show (0 : Int) < 4294967296 by norm_num)
  have h0 := Int.emod_nonneg x (show (4294967296 : Int) ≠ 0 by norm_num)
  omega

theorem to_unsigned_neg {x : Int} (h0 : x < 0) (h1 : -2147483648 ≤ x) :
    2147483648 ≤ to_unsigned x := by
  unfold to_unsigned
  have h : x % 4294967296 = x + 4294967296 := by
    rw [← Int.add_emod_self]
    exact Int.emod_eq_of_lt (by omega) (by omega)
  rw [h]
  omega

theorem usub_of_le {a b : Nat} (hab : b ≤ a) (ha : a < 4294967296) : usub a b = a - b := by
  unfold usub
  omega

theorem to_int_of_lt {u : Nat} (h : u < 2147483648) : to_int u = u := by
  unfold to_int
  have : u % 4294967296 = u := Nat.mod_eq_of_lt (by omega)
  rw [this, if_pos h]

theorem compare_le_iff {a b : Nat} (ha : a < 2147483648) (hb : b < 2147483648) :
    compare a b ≤ 0 ↔ a ≤ b := by
  unfold compare wrap_int
  rw [to_int_of_lt ha, to_int_of_lt hb]
  omega

/-! ## The search loop of position_ok -/

theorem position_ok_scan_shift (p : Int) (xs : List Nat) (k : Nat) :
    position_ok_scan p xs k = k + position_ok_scan p xs 0 := by
  induction xs generalizing k with
  | nil => simp [position_ok_scan]
  | cons x xs ih =>
    simp only [position_ok_scan]
    split
    · simp
    · rw [ih (k + 1), ih (0 + 1)]; omega

theorem position_ok_scan_le (p : Int) (xs : List Nat) :
    position_ok_scan p xs 0 ≤ xs.length := by
  induction xs with
  | nil => simp [position_ok_scan]
  | cons x xs ih =>
    simp only [position_ok_scan]
    split
    · simp
    · rw [position_ok_scan_shift]; simp; omega

/-- Entries before the index found by the loop are not above `p`. -/
theorem position_ok_scan_before (p : Int) (xs : List Nat) (k : Nat)
    (hk : k < position_ok_scan p xs 0) : xs.getD k 0 ≤ to_unsigned p := by
  induction xs generalizing k with
  | nil => simp [position_ok_scan] at hk
  | cons x xs ih =>
    simp only [position_ok_scan] at hk
    split at hk
    · omega
    · rw [position_ok_scan_shift] at hk
      cases k with
      | zero => simp only [List.getD_cons_zero]; omega
      | succ k => simp only [List.getD_cons_succ]; exact ih k (by omega)

/-- The entry at the index found by the loop, when there is one, is above `p`. -/
theorem position_ok_scan_at (p : Int) (xs : List Nat)
    (hk : position_ok_scan p xs 0 < xs.length) :
    to_unsigned p < xs.getD (position_ok_scan p xs 0) 0 := by
  induction xs with
  | nil => simp at hk
  | cons x xs ih =>
    simp only [position_ok_scan] at hk ⊢
    split
    · simp only [List.getD_cons_zero]; omega
    · rename_i h
      rw [if_neg h] at hk
      rw [position_ok_scan_shift] at hk ⊢
      have : 0 + 1 + position_ok_scan p xs 0 = position_ok_scan p xs 0 + 1 := by omega
      rw [this]
      simp only [List.getD_cons_succ]
      apply ih
      simp at hk; omega

theorem sorted_getD_le {t : List Nat} (hs : t.Sorted (· ≤ ·)) {i j : Nat}
    (hij : i ≤ j) (hj : j < t.length) : t.getD i 0 ≤ t.getD j 0 := by
  have hi : i < t.length := by omega
  rw [List.getD_eq_getElem t 0 hi, List.getD_eq_getElem t 0 hj]
  rcases Nat.eq_or_lt_of_le hij with h | h
  · subst h; exact le_refl _
  · exact (List.pairwise_iff_getElem.mp hs) i j hi hj h

theorem mem_iff_getD {t : List Nat} {q : Nat} :
    q ∈ t ↔ ∃ k, k < t.length ∧ t.getD k 0 = q := by
  constructor
  · intro h
    obtain ⟨k, hk, rfl⟩ := List.getElem_of_mem h
    exact ⟨k, hk, List.getD_eq_getElem t 0 hk⟩
  · rintro ⟨k, hk, rfl⟩
    rw [List.getD_eq_getElem t 0 hk]
    exact List.getElem_mem hk

/-! ## What position_ok computes on a sorted table -/

theorem position_ok_zero_or_one (t : List Nat) (D p : Int) :
    position_ok t D p = 0 ∨ position_ok t D p = 1 := by
  unfold position_ok
  simp only []
  split
  · exact Or.inr rfl
  · split
    · split
      · exact Or.inr rfl
      · exact Or.inl rfl
    · split
      · split
        · exact Or.inr rfl
        · exact Or.inl rfl
      · split
        · exact Or.inr rfl
        · exact Or.inl rfl

/-- On a sorted table `position_ok` tests the distance to every stored position
against the minimum distance read as an `unsigned int`. -/
theorem position_ok_eq_one_iff {t : List Nat} (hs : t.Sorted (· ≤ ·))
    (hb : ∀ q ∈ t, q < 2147483648) (D : Int) {p : Int} (hp0 : 0 ≤ p) (hp1 : p < 2147483648) :
    position_ok t D p = 1 ↔
      (t = [] ∨ ∀ q ∈ t, (to_unsigned D : Int) ≤ |p - (q : Int)|) := by
  have hu : (to_unsigned p : Int) = p := to_unsigned_of_range hp0 (by omega)
  have hle := position_ok_scan_le p t
  have hbefore := position_ok_scan_before p t
  have hat := position_ok_scan_at p t
  have hget : ∀ k, k < t.length → t.getD k 0 < 2147483648 := by
    intro k hk
    apply hb
    exact mem_iff_getD.mpr ⟨k, hk, rfl⟩
  unfold position_ok
  simp only []
  by_cases hn : t.length = 0
  · rw [if_pos hn]
    simp [List.length_eq_zero.mp hn]
  · rw [if_neg hn]
    have hne : t ≠ [] := fun h => hn (by simp [h])
    simp only [hne, false_or]
    generalize position_ok_scan p t 0 = i at hle hbefore hat
    by_cases hin : i = t.length
    · rw [if_pos hin]
      have hlast := hbefore (t.length - 1) (by omega)
      have hlb := hget (t.length - 1) (by omega)
      rw [usub_of_le hlast (by omega)]
      constructor
      · intro h q hq
        have hc : to_unsigned D ≤ to_unsigned p - t.getD (t.length - 1) 0 := by
          by_contra hcon; rw [if_neg hcon] at h; exact absurd h (by decide)
        obtain ⟨k, hk, rfl⟩ := mem_iff_getD.mp hq
        have h1 := sorted_getD_le hs (show k ≤ t.length - 1 by omega) (by omega)
        rw [le_abs]; left; omega
      · intro h
        have h1 := h (t.getD (t.length - 1) 0) (mem_iff_getD.mpr ⟨t.length - 1, by omega, rfl⟩)
        rw [le_abs] at h1
        rw [if_pos (by omega)]
    · rw [if_neg hin]
      have hilt : i < t.length := by omega
      have hti := hat hilt
      have htib := hget i hilt
      by_cases hi0 : i = 0
      · rw [if_pos hi0]
        subst hi0
        rw [usub_of_le (by omega) (by omega)]
        constructor
        · intro h q hq
          have hc : to_unsigned D ≤ t.getD 0 0 - to_unsigned p := by
            by_contra hcon; rw [if_neg hcon] at h; exact absurd h (by decide)
          obtain ⟨k, hk, rfl⟩ := mem_iff_getD.mp hq
          have h1 := sorted_getD_le hs (show 0 ≤ k by omega) hk
          rw [le_abs]; right; omega
        · intro h
          have h1 := h (t.getD 0 0) (mem_iff_getD.mpr ⟨0, by omega, rfl⟩)
          rw [le_abs] at h1
          rw [if_pos (by omega)]
      · rw [if_neg hi0]
        have hprev := hbefore (i - 1) (by omega)
        rw [usub_of_le (by omega) (by omega), usub_of_le hprev (by omega)]
        constructor
        · intro h q hq
          have hc : to_unsigned D ≤ t.getD i 0 - to_unsigned p
              ∧ to_unsigned D ≤ to_unsigned p - t.getD (i - 1) 0 := by
            by_contra hcon; rw [if_neg hcon] at h; exact absurd h (by decide)
          obtain ⟨k, hk, rfl⟩ := mem_iff_getD.mp hq
          rw [le_abs]
          by_cases hki : k < i
          · have h1 := sorted_getD_le hs (show k ≤ i - 1 by omega) (by omega)
            left; omega
          · have h1 := sorted_getD_le hs (show i ≤ k by omega) hk
            right; omega
        · intro h
          have h1 := h (t.getD i 0) (mem_iff_getD.mpr ⟨i, hilt, rfl⟩)
          have h2 := h (t.getD (i - 1) 0) (mem_iff_getD.mpr ⟨i - 1, by omega, rfl⟩)
          rw [le_abs] at h1 h2
          rw [if_pos (by constructor <;> omega)]

/-- For a minimum distance `D ≥ 0` the result of `position_ok` on a sorted table
is the acceptance rule of the specification at the insertion index. -/
theorem position_ok_matches_rule {t : List Nat} (hs : t.Sorted (· ≤ ·))
    (hb : ∀ q ∈ t, q < 2147483648) {D : Int} (hD0 : 0 ≤ D) (hD1 : D < 2147483648)
    {p : Int} (hp0 : 0 ≤ p) (hp1 : p < 2147483648) {i : Nat}
    (hi : is_insertion_index t p i) :
    position_ok t D p = 1 ↔ accept_rule t D p i := by
  rw [position_ok_eq_one_iff hs hb D hp0 hp1, to_unsigned_of_range hD0 (by omega)]
  obtain ⟨hile, hlt, hge⟩ := hi
  unfold accept_rule
  by_cases hnil : t = []
  · simp [hnil]
  · have hpos : 0 < t.length := List.length_pos.mpr hnil
    simp only [hnil, false_or]
    constructor
    · intro h
      by_cases hin : i = t.length
      · left
        refine ⟨hin, ?_⟩
        have h1 := h _ (mem_iff_getD.mpr ⟨t.length - 1, by omega, rfl⟩)
        have h2 := hlt (t.length - 1) (by omega)
        rw [le_abs] at h1
        omega
      · right
        by_cases hi0 : i = 0
        · left
          refine ⟨hi0, ?_⟩
          have h1 := h _ (mem_iff_getD.mpr ⟨0, hpos, rfl⟩)
          have h2 := hge 0 hpos (by omega)
          rw [le_abs] at h1
          omega
        · right
          have h1 := h _ (mem_iff_getD.mpr ⟨i, by omega, rfl⟩)
          have h2 := hge i (by omega) (le_refl i)
          have h3 := h _ (mem_iff_getD.mpr ⟨i - 1, by omega, rfl⟩)
          have h4 := hlt (i - 1) (by omega)
          rw [le_abs] at h1 h3
          exact ⟨by omega, by omega, by omega, by omega⟩
    · intro h q hq
      obtain ⟨k, hk, rfl⟩ := mem_iff_getD.mp hq
      rw [le_abs]
      rcases h with ⟨hin, hd⟩ | ⟨hi0, hd⟩ | ⟨hi0, hil, hd1, hd2⟩
      · have h1 := sorted_getD_le hs (show k ≤ t.length - 1 by omega) (by omega)
        left; omega
      · have h1 := sorted_getD_le hs (show 0 ≤ k by omega) hk
        right; omega
      · by_cases hki : k < i
        · have h1 := sorted_getD_le hs (show k ≤ i - 1 by omega) (by omega)
          left; omega
        · have h1 := sorted_getD_le hs (show i ≤ k by omega) hk
          right; omega

/-! ## qsort on tables of non-negative `int` values -/

theorem orderedInsert_rel_congr {r s : Nat → Nat → Prop} [DecidableRel r] [DecidableRel s]
    (a : Nat) (l : List Nat) (h : ∀ b ∈ l, r a b ↔ s a b) :
    List.orderedInsert r a l = List.orderedInsert s a l := by
  induction l with
  | nil => rfl
  | cons b l ih =>
    have hb := h b (List.mem_cons_self b l)
    have hl : ∀ c ∈ l, r a c ↔ s a c := fun c hc => h c (List.mem_cons_of_mem b hc)
    simp only [List.orderedInsert]
    by_cases hr : r a b
    · rw [if_pos hr, if_pos (hb.mp hr)]
    · rw [if_neg hr, if_neg (fun hs => hr (hb.mpr hs)), ih hl]

/-- On entries below 2^31 the order used by `qsort` is the order of the numbers. -/
theorem qsort_eq_insertionSort (xs : List Nat) (hb : ∀ q ∈ xs, q < 2147483648) :
    qsort xs = xs.insertionSort (· ≤ ·) := by
  unfold qsort
  induction xs with
  | nil => rfl
  | cons a l ih =>
    have hl : ∀ q ∈ l, q < 2147483648 := fun q hq => hb q (List.mem_cons_of_mem a hq)
    have ha := hb a (List.mem_cons_self a l)
    simp only [List.insertionSort]
    rw [ih hl]
    apply orderedInsert_rel_congr
    intro b hbm
    have hbl : b ∈ l := (List.perm_insertionSort (· ≤ ·) l).subset hbm
    exact compare_le_iff ha (hl b hbl)

theorem qsort_sorted (xs : List Nat) (hb : ∀ q ∈ xs, q < 2147483648) :
    (qsort xs).Sorted (· ≤ ·) := by
  rw [qsort_eq_insertionSort xs hb]
  exact List.sorted_insertionSort (· ≤ ·) xs

theorem qsort_perm (xs : List Nat) (hb : ∀ q ∈ xs, q < 2147483648) :
    (qsort xs).Perm xs := by
  rw [qsort_eq_insertionSort xs hb]
  exact List.perm_insertionSort (· ≤ ·) xs

/-! ## The invariant of the sampler -/

theorem table_inv_nil (L D : Int) : table_inv L D [] :=
  ⟨List.sorted_nil, by simp, List.Pairwise.nil⟩

/-- The draw `random() % reference_size` lies in `[0, reference_size)`. -/
theorem draw_range (r : Nat) {L : Int} (hL : 1 ≤ L) :
    0 ≤ Int.tmod (r : Int) L ∧ Int.tmod (r : Int) L < L :=
  ⟨Int.tmod_nonneg L (Int.ofNat_nonneg r), Int.tmod_lt_of_pos _ (by omega)⟩

/-- An accepted candidate is at least `D` away from every stored position. -/
theorem position_ok_sound {L D : Int} {t : List Nat} (hL : L < 2147483648)
    (hD0 : -2147483648 ≤ D) (hD1 : D < 2147483648) (hinv : table_inv L D t)
    {p : Int} (hp0 : 0 ≤ p) (hp1 : p < L) (hok : position_ok t D p ≠ 0) :
    ∀ q ∈ t, D ≤ |p - (q : Int)| := by
  obtain ⟨hs, hb, _⟩ := hinv
  have hb2 : ∀ q ∈ t, q < 2147483648 := fun q hq => by have := hb q hq; omega
  have h1 : position_ok t D p = 1 := by
    rcases position_ok_zero_or_one t D p with h | h
    · exact absurd h hok
    · exact h
  rcases (position_ok_eq_one_iff hs hb2 D hp0 (by omega)).mp h1 with h | h
  · subst h; simp
  · intro q hq
    have hq1 := h q hq
    have hDu : D ≤ (to_unsigned D : Int) := by
      by_cases hneg : D < 0
      · omega
      · rw [to_unsigned_of_range (by omega) (by omega)]
    omega

/-- Storing an accepted candidate and sorting keeps the invariant. -/
theorem table_inv_insert {L D : Int} {t : List Nat} (hL : L < 2147483648)
    (hD0 : -2147483648 ≤ D) (hD1 : D < 2147483648) (hinv : table_inv L D t)
    {p : Int} (hp0 : 0 ≤ p) (hp1 : p < L) (hok : position_ok t D p ≠ 0) :
    table_inv L D (qsort (t ++ [to_unsigned p])) := by
  have hsound := position_ok_sound hL hD0 hD1 hinv hp0 hp1 hok
  obtain ⟨hs, hb, hpw⟩ := hinv
  have hu : (to_unsigned p : Int) = p := to_unsigned_of_range hp0 (by omega)
  have hb2 : ∀ q ∈ t ++ [to_unsigned p], q < 2147483648 := by
    intro q hq
    rcases List.mem_append.mp hq with h | h
    · have := hb q h; omega
    · simp at h; omega
  have hperm := qsort_perm _ hb2
  refine ⟨qsort_sorted _ hb2, ?_, ?_⟩
  · intro q hq
    rcases List.mem_append.mp (hperm.subset hq) with h | h
    · exact hb q h
    · simp at h; omega
  · have hsym : ∀ {x y : Nat}, D ≤ |(y : Int) - (x : Int)| → D ≤ |(x : Int) - (y : Int)| := by
      intro x y h; rw [abs_sub_comm]; exact h
    rw [List.Perm.pairwise_iff hsym hperm, List.pairwise_append]
    refine ⟨hpw, List.pairwise_singleton _ _, ?_⟩
    intro a ha b hb'
    simp at hb'
    subst hb'
    rw [hu]
    exact hsound a ha

/-- The invariant holds in every state of the loops of `make_snps`. -/
theorem make_snps_loop_inv {L D : Int} (hL0 : 1 ≤ L) (hL : L < 2147483648)
    (hD0 : -2147483648 ≤ D) (hD1 : D < 2147483648) (draws : List Nat) :
    ∀ (todo : Nat) (t : List Nat), table_inv L D t →
      table_inv L D (make_snps_loop L D todo draws t).table := by
  induction draws with
  | nil =>
    intro todo t hinv
    cases todo with
    | zero => simpa [make_snps_loop, Run.table] using hinv
    | succ n =>
      have hne : L ≠ 0 := by omega
      simpa [make_snps_loop, Run.table, hne] using hinv
  | cons r draws ih =>
    intro todo t hinv
    cases todo with
    | zero => simpa [make_snps_loop, Run.table] using hinv
    | succ n =>
      have hne : L ≠ 0 := by omega
      simp only [make_snps_loop, if_neg hne]
      obtain ⟨hp0, hp1⟩ := draw_range r hL0
      by_cases hok : position_ok t D (Int.tmod (r : Int) L) = 0
      · rw [if_pos hok]; exact ih (n + 1) t hinv
      · rw [if_neg hok]
        exact ih n _ (table_inv_insert hL hD0 hD1 hinv hp0 hp1 hok)

/-- In an ascending table whose entries are pairwise `D` apart, later entries
exceed earlier ones by at least `D`. -/
theorem table_inv_gaps {L D : Int} {t : List Nat} (hinv : table_inv L D t) :
    t.Pairwise (fun (a b : Nat) => D ≤ (b : Int) - (a : Int)) := by
  obtain ⟨hs, _, hpw⟩ := hinv
  have hs2 : t.Pairwise (fun a b => a ≤ b) := hs
  refine (hs2.and hpw).imp ?_
  intro a b h
  obtain ⟨h1, h2⟩ := h
  rw [abs_of_nonneg (by omega)] at h2
  exact h2

/-! ## make_snp -/

theorem nucleotides_getD_mem (r : Nat) : nucleotides.getD (r % 4) 'A' ∈ ['A', 'C', 'G', 'T'] := by
  have h : r % 4 < 4 := Nat.mod_lt r (by decide)
  generalize r % 4 = k at h
  interval_cases k <;> decide

theorem make_snp_loop_spec (current_n : Char) (draws : List Nat) (new_n : Char)
    (rest : List Nat) (h : make_snp_loop current_n draws = some (new_n, rest)) :
    new_n ∈ ['A', 'C', 'G', 'T'] ∧ new_n ≠ current_n := by
  induction draws with
  | nil => simp [make_snp_loop] at h
  | cons r draws ih =>
    simp only [make_snp_loop] at h
    by_cases hc : nucleotides.getD (r % 4) 'A' = current_n
    · rw [if_pos hc] at h; exact ih h
    · rw [if_neg hc] at h
      simp only [Option.some.injEq, Prod.mk.injEq] at h
      obtain ⟨h1, _⟩ := h
      subst h1
      exact ⟨nucleotides_getD_mem r, hc⟩

/-! ## read_reference -/

theorem char_eq_of_toNat {c d : Char} (h : c.toNat = d.toNat) : c = d := by
  apply Char.ext
  apply UInt32.ext
  exact h

theorem toupper_toNat (c : Char) :
    (toupper c).toNat = if 97 ≤ c.toNat ∧ c.toNat ≤ 122 then c.toNat - 32 else c.toNat := by
  unfold toupper
  split
  · rename_i h
    have hv : (c.toNat - 32).isValidChar := by
      left; omega
    rw [Char.ofNat, dif_pos hv]
    rfl
  · rfl

theorem toupper_eq_iff (c u l : Char) (n : Nat) (hu : u.toNat = n) (hl : l.toNat = n + 32)
    (h0 : 65 ≤ n) (h1 : n ≤ 90) : toupper c = u ↔ c = u ∨ c = l := by
  constructor
  · intro h
    have h2 := congrArg Char.toNat h
    rw [toupper_toNat] at h2
    split at h2
    · right; apply char_eq_of_toNat; omega
    · left; exact char_eq_of_toNat h2
  · rintro (h | h)
    · subst h
      apply char_eq_of_toNat
      rw [toupper_toNat, if_neg (by omega)]
    · subst h
      apply char_eq_of_toNat
      rw [toupper_toNat, if_pos (by omega)]
      omega

theorem is_nucleotide_ne_zero_iff_toupper (c : Char) :
    is_nucleotide c ≠ 0 ↔
      (toupper c = 'A' ∨ toupper c = 'C' ∨ toupper c = 'G' ∨ toupper c = 'T') := by
  unfold is_nucleotide
  simp only []
  split
  · rename_i h; exact ⟨fun _ => h, fun _ => by decide⟩
  · rename_i h; exact ⟨fun h0 => absurd rfl h0, fun h1 => absurd h1 h⟩

/-- The function `is_nucleotide` gives 1 on the eight letters A, C, G, T, a, c,
g, t and 0 on every other character. -/
theorem is_nucleotide_ne_zero_iff (c : Char) :
    is_nucleotide c ≠ 0 ↔ c ∈ nucleotide_letters := by
  have hA := toupper_eq_iff c 'A' 'a' 65 rfl rfl (by omega) (by omega)
  have hC := toupper_eq_iff c 'C' 'c' 67 rfl rfl (by omega) (by omega)
  have hG := toupper_eq_iff c 'G' 'g' 71 rfl rfl (by omega) (by omega)
  have hT := toupper_eq_iff c 'T' 't' 84 rfl rfl (by omega) (by omega)
  rw [is_nucleotide_ne_zero_iff_toupper, hA, hC, hG, hT]
  simp only [nucleotide_letters, List.mem_cons, List.mem_singleton, List.not_mem_nil, or_false]
  constructor
  · rintro ((h | h) | (h | h) | (h | h) | (h | h)) <;> simp [h]
  · rintro (h | h | h | h | h | h | h | h) <;> simp [h]

theorem header_line_length_pos (c : Char) (cs : List Char) :
    1 ≤ (header_line (c :: cs)).length := by
  simp only [header_line]
  split <;> simp

theorem header_line_head (text : List Char) : (header_line text).head? = text.head? := by
  cases text with
  | nil => rfl
  | cons c cs =>
    simp only [header_line]
    split <;> simp

theorem body_of_length_le (text : List Char) : (body_of text).length ≤ text.length := by
  induction text with
  | nil => simp [body_of]
  | cons c cs ih =>
    simp only [body_of]
    split
    · simp
    · simp; omega

/-- When the header line fits in the buffer, `fgets` reads exactly the header
line and leaves the body unread; the end of the file was hit only if the body
is empty. -/
theorem fgets_loop_spec (text : List Char) :
    ∀ n, (header_line text).length ≤ n →
      (fgets_loop n text).1 = header_line text ∧ (fgets_loop n text).2.1 = body_of text ∧
      ((fgets_loop n text).2.2 = true → body_of text = []) := by
  induction text with
  | nil =>
    intro n _
    cases n <;> simp [fgets_loop, header_line, body_of]
  | cons c cs ih =>
    intro n hn
    have hpos := header_line_length_pos c cs
    cases n with
    | zero => omega
    | succ m =>
      simp only [fgets_loop, header_line, body_of] at hn ⊢
      by_cases hc : c = '\n'
      · simp [hc]
      · rw [if_neg hc] at hn ⊢
        rw [if_neg hc, if_neg hc]
        have h := ih m (by simpa using hn)
        exact ⟨by rw [h.1], h.2.1, h.2.2⟩

theorem read_reference_char_eof (reference : List Char) :
    read_reference_char EOF_char reference = some reference := by
  unfold read_reference_char
  rw [if_neg (by decide), if_neg (by decide)]

/-- Without a second header marker the reading loop stores the upper-cased
nucleotide letters of the unread text, in order. -/
theorem read_reference_loop_ok (cs : List Char) :
    ∀ (e : Bool) (acc : List Char), '>' ∉ cs → (e = true → cs = []) →
      read_reference_loop cs e acc = read_reference_finish
        (acc ++ (cs.filter (fun c => decide (c ∈ nucleotide_letters))).map toupper) := by
  induction cs with
  | nil =>
    intro e acc _ _
    cases e
    · simp [read_reference_loop, read_reference_char_eof]
    · simp [read_reference_loop]
  | cons c cs ih =>
    intro e acc hgt he
    cases e with
    | true => exact absurd (he rfl) (by simp)
    | false =>
      have hc : c ≠ '>' := fun h => hgt (by simp [h])
      have hcs : '>' ∉ cs := fun h => hgt (List.mem_cons_of_mem c h)
      simp only [read_reference_loop, read_reference_char, if_neg hc]
      by_cases hn : is_nucleotide c ≠ 0
      · rw [if_pos hn]
        have hm := (is_nucleotide_ne_zero_iff c).mp hn
        simp only []
        rw [ih false _ hcs (by simp)]
        simp [List.filter_cons, hm]
      · rw [if_neg hn]
        have hm : c ∉ nucleotide_letters := fun h => hn ((is_nucleotide_ne_zero_iff c).mpr h)
        simp only []
        rw [ih false _ hcs (by simp)]
        simp [List.filter_cons, hm]

/-- A second header marker in the unread text makes the reading loop exit. -/
theorem read_reference_loop_exit (cs : List Char) :
    ∀ (acc : List Char), '>' ∈ cs →
      read_reference_loop cs false acc
        = .exit 1 "Error: File should only have 1 sequence in it." := by
  induction cs with
  | nil => intro acc h; simp at h
  | cons c cs ih =>
    intro acc h
    by_cases hc : c = '>'
    · simp [read_reference_loop, read_reference_char, hc]
    · have hcs : '>' ∈ cs := by
        rcases List.mem_cons.mp h with h1 | h1
        · exact absurd h1.symm hc
        · exact h1
      simp only [read_reference_loop, read_reference_char, if_neg hc]
      by_cases hn : is_nucleotide c ≠ 0
      · rw [if_pos hn]; exact ih _ hcs
      · rw [if_neg hn]; exact ih _ hcs

/-- The function `read_reference` in terms of the header line and the body,
when the header line fits in the buffer of `fgets`. -/
theorem read_reference_eq (text : List Char) (hline : (header_line text).length ≤ 1023) :
    read_reference text =
      if text = [] then .exit 1 "Error: Couldn't get header line."
      else if text.head? ≠ some '>' then .exit 1 "Error: File should begin with FASTA header."
      else if '>' ∈ body_of text then .exit 1 "Error: File should only have 1 sequence in it."
      else read_reference_finish
        (((body_of text).filter (fun c => decide (c ∈ nucleotide_letters))).map toupper) := by
  cases text with
  | nil => rfl
  | cons c cs =>
    obtain ⟨h1, h2, h3⟩ := fgets_loop_spec (c :: cs) 1023 hline
    have hpos := header_line_length_pos c cs
    have hne : header_line (c :: cs) ≠ [] := by
      intro h; rw [h] at hpos; simp at hpos
    rw [if_neg (by simp)]
    unfold read_reference fgets
    simp only [Nat.add_one_sub_one]
    rw [h1, h2]
    rw [if_neg (by simp [hne])]
    simp only [header_line_head]
    by_cases hhead : (c :: cs).head? ≠ some '>'
    · rw [if_pos hhead, if_pos hhead]
    · rw [if_neg hhead, if_neg hhead]
      by_cases hgt : '>' ∈ body_of (c :: cs)
      · rw [if_pos hgt]
        have he : (fgets_loop 1023 (c :: cs)).2.2 = false := by
          cases hfe : (fgets_loop 1023 (c :: cs)).2.2 with
          | false => rfl
          | true => rw [h3 hfe] at hgt; simp at hgt
        rw [he]
        exact read_reference_loop_exit _ _ hgt
      · rw [if_neg hgt]
        have := read_reference_loop_ok (body_of (c :: cs)) (fgets_loop 1023 (c :: cs)).2.2 []
          hgt h3
        simpa using this

/-! ## write_output_files -/

theorem make_snp_spec (position : Int) (current_n : Char) (draws : List Nat)
    (new_n : Char) (row : CsvRow) (rest : List Nat)
    (h : make_snp position current_n draws = some (new_n, row, rest)) :
    new_n ∈ ['A', 'C', 'G', 'T'] ∧ new_n ≠ current_n ∧
      row = ⟨position, current_n, new_n⟩ := by
  unfold make_snp at h
  cases hl : make_snp_loop current_n draws with
  | none => rw [hl] at h; exact absurd h (by simp)
  | some r =>
    obtain ⟨n', rest'⟩ := r
    rw [hl] at h
    simp only [Option.some.injEq, Prod.mk.injEq] at h
    obtain ⟨h1, h2, _⟩ := h
    subst h1
    obtain ⟨hm, hne⟩ := make_snp_loop_spec current_n draws n' rest' hl
    exact ⟨hm, hne, h2.symm⟩

theorem line_break_symbols (W c : Int) : symbols_of (line_break W c).1 = [] := by
  unfold line_break symbols_of
  split <;> simp

theorem symbols_of_cons {n : Char} (hn : n ≠ '\n') (W c : Int) (out : List Char) :
    symbols_of (n :: (line_break W c).1 ++ out) = n :: symbols_of out := by
  have h := line_break_symbols W c
  unfold symbols_of at h ⊢
  rw [List.cons_append, List.filter_cons, if_pos (by simpa using hn), List.filter_append, h]
  rfl

theorem write_output_loop_cons {T : List Nat} {W : Int} {x : Char} {xs : List Char}
    {p s : Nat} {c : Int} {draws : List Nat} {out : List Char} {csv : List CsvRow}
    {rest : List Nat}
    (h : write_output_loop T W (x :: xs) p s c draws = some (out, csv, rest)) :
    ∃ n rows s1 d1 out1 csv1, write_output_symbol T x p s draws = some (n, rows, s1, d1) ∧
      write_output_loop T W xs (p + 1) s1 (line_break W c).2 d1 = some (out1, csv1, rest) ∧
      out = n :: (line_break W c).1 ++ out1 ∧ csv = rows ++ csv1 := by
  simp only [write_output_loop] at h
  cases hsym : write_output_symbol T x p s draws with
  | none => rw [hsym] at h; exact absurd h (by simp)
  | some r =>
    obtain ⟨n, rows, s1, d1⟩ := r
    rw [hsym] at h
    simp only [] at h
    cases hrec : write_output_loop T W xs (p + 1) s1 (line_break W c).2 d1 with
    | none => rw [hrec] at h; exact absurd h (by simp)
    | some r2 =>
      obtain ⟨out1, csv1, rest1⟩ := r2
      rw [hrec] at h
      simp only [Option.some.injEq, Prod.mk.injEq] at h
      obtain ⟨h1, h2, h3⟩ := h
      subst h3
      exact ⟨n, rows, s1, d1, out1, csv1, rfl, hrec, h1.symm, h2.symm⟩

theorem write_output_symbol_hit {T : List Nat} {x : Char} {p s : Nat} {draws : List Nat}
    {n : Char} {rows : List CsvRow} {s1 : Nat} {d1 : List Nat}
    (hc : s < T.length ∧ to_unsigned (p : Int) = T.getD s 0)
    (h : write_output_symbol T x p s draws = some (n, rows, s1, d1)) :
    n ∈ ['A', 'C', 'G', 'T'] ∧ n ≠ x ∧ rows = [⟨to_int (T.getD s 0), x, n⟩] ∧ s1 = s + 1 := by
  unfold write_output_symbol at h
  rw [if_pos hc] at h
  cases hm : make_snp (to_int (T.getD s 0)) x draws with
  | none => rw [hm] at h; exact absurd h (by simp)
  | some r =>
    obtain ⟨n', row, rest'⟩ := r
    rw [hm] at h
    simp only [Option.some.injEq, Prod.mk.injEq] at h
    obtain ⟨h1, h2, h3, _⟩ := h
    obtain ⟨g1, g2, g3⟩ := make_snp_spec _ _ _ _ _ _ hm
    subst h1
    exact ⟨g1, g2, by rw [← h2, g3], h3.symm⟩

theorem write_output_symbol_miss {T : List Nat} {x : Char} {p s : Nat} {draws : List Nat}
    {n : Char} {rows : List CsvRow} {s1 : Nat} {d1 : List Nat}
    (hc : ¬ (s < T.length ∧ to_unsigned (p : Int) = T.getD s 0))
    (h : write_output_symbol T x p s draws = some (n, rows, s1, d1)) :
    n = x ∧ rows = [] ∧ s1 = s ∧ d1 = draws := by
  unfold write_output_symbol at h
  rw [if_neg hc] at h
  simp only [Option.some.injEq, Prod.mk.injEq] at h
  obtain ⟨h1, h2, h3, h4⟩ := h
  exact ⟨h1.symm, h2.symm, h3.symm, h4.symm⟩

theorem sorted_getD_lt {t : List Nat} (hs : t.Sorted (· < ·)) {i j : Nat}
    (hij : i < j) (hj : j < t.length) : t.getD i 0 < t.getD j 0 := by
  have hi : i < t.length := by omega
  rw [List.getD_eq_getElem t 0 hi, List.getD_eq_getElem t 0 hj]
  exact (List.pairwise_iff_getElem.mp hs) i j hi hj hij

theorem drop_map_cast (T : List Nat) (s : Nat) (hs : s < T.length) :
    (T.drop s).map (fun (q : Nat) => (q : Int))
      = (T.getD s 0 : Int) :: (T.drop (s + 1)).map (fun (q : Nat) => (q : Int)) := by
  rw [List.drop_eq_getElem_cons hs, List.getD_eq_getElem T 0 hs]
  rfl

/-- What the writing loop does from position `p` on, when the table is strictly
ascending and its entries from index `s` on are the positions not yet passed. -/
theorem write_output_loop_spec (T : List Nat) (W : Int) (hsorted : T.Sorted (· < ·)) :
    ∀ (xs : List Char) (p s : Nat) (c : Int) (draws : List Nat) (out : List Char)
      (csv : List CsvRow) (rest : List Nat),
      p + xs.length < 2147483648 →
      (∀ k, s ≤ k → k < T.length → p ≤ T.getD k 0 ∧ T.getD k 0 < p + xs.length) →
      write_output_loop T W xs p s c draws = some (out, csv, rest) →
      csv.map (fun row => row.position) = (T.drop s).map (fun (q : Nat) => (q : Int)) ∧
      (∀ j row, csv[j]? = some row →
        xs[T.getD (s + j) 0 - p]? = some row.reference ∧ row.snp ≠ row.reference ∧
        row.snp ∈ ['A', 'C', 'G', 'T']) ∧
      ((∀ ch ∈ xs, ch ≠ '\n') →
        (symbols_of out).length = xs.length ∧
        (∀ j row, csv[j]? = some row → (symbols_of out)[T.getD (s + j) 0 - p]? = some row.snp) ∧
        (∀ i, i < xs.length → (∀ k, s ≤ k → k < T.length → T.getD k 0 ≠ p + i) →
          (symbols_of out)[i]? = xs[i]?)) := by
  intro xs
  induction xs with
  | nil =>
    intro p s c draws out csv rest _ hrange h
    simp only [write_output_loop, Option.some.injEq, Prod.mk.injEq] at h
    obtain ⟨h1, h2, _⟩ := h
    subst h1; subst h2
    have hs : T.length ≤ s := by
      by_contra hcon
      have := hrange s (le_refl s) (by omega)
      simp at this
      omega
    refine ⟨by simp [List.drop_eq_nil_of_le hs], ?_, ?_⟩
    · intro j row hj; simp at hj
    · intro _
      refine ⟨by simp [symbols_of], ?_, ?_⟩
      · intro j row hj; simp at hj
      · intro i hi; simp at hi
  | cons x xs ih =>
    intro p s c draws out csv rest hbound hrange h
    obtain ⟨n, rows, s1, d1, out1, csv1, hsym, hrec, hout, hcsv⟩ := write_output_loop_cons h
    have hlen : (x :: xs).length = xs.length + 1 := List.length_cons x xs
    rw [hlen] at hbound hrange
    have hup : to_unsigned (p : Int) = p := by
      have := to_unsigned_of_range (show (0 : Int) ≤ (p : Int) by omega)
        (show (p : Int) < 4294967296 by omega)
      omega
    by_cases hc : s < T.length ∧ to_unsigned (p : Int) = T.getD s 0
    · -- the position `p` is the next entry of the table
      obtain ⟨hn1, hn2, hrows, hs1⟩ := write_output_symbol_hit hc hsym
      obtain ⟨hsl, hpe⟩ := hc
      rw [hup] at hpe
      subst hs1
      have hti : to_int (T.getD s 0) = (T.getD s 0 : Int) := to_int_of_lt (by omega)
      have hrange1 : ∀ k, s + 1 ≤ k → k < T.length →
          p + 1 ≤ T.getD k 0 ∧ T.getD k 0 < p + 1 + xs.length := by
        intro k hk hkl
        have h1 := sorted_getD_lt hsorted (show s < k by omega) hkl
        have h2 := hrange k (by omega) hkl
        omega
      obtain ⟨ih1, ih2, ih3⟩ := ih (p + 1) (s + 1) _ d1 out1 csv1 rest (by omega) hrange1 hrec
      have hcl : csv1.length = T.length - (s + 1) := by
        have := congrArg List.length ih1
        rw [List.length_map, List.length_map, List.length_drop] at this
        exact this
      have hnl : n ≠ '\n' := by
        intro hcon; rw [hcon] at hn1; exact absurd hn1 (by decide)
      subst hout; subst hcsv; subst hrows
      refine ⟨?_, ?_, ?_⟩
      · rw [drop_map_cast T s hsl, List.map_append, ih1, hti]
        rfl
      · intro j row hj
        cases j with
        | zero =>
          simp only [List.singleton_append, List.getElem?_cons_zero, Option.some.injEq] at hj
          subst hj
          have h0 : T.getD (s + 0) 0 - p = 0 := by rw [Nat.add_zero]; omega
          rw [h0]
          exact ⟨by simp, hn2, hn1⟩
        | succ j =>
          simp only [List.singleton_append, List.getElem?_cons_succ] at hj
          have hjl : j < csv1.length := (List.getElem?_eq_some.mp hj).1
          have hr := hrange1 (s + 1 + j) (by omega) (by omega)
          have hidx : T.getD (s + (j + 1)) 0 - p = (T.getD (s + 1 + j) 0 - (p + 1)) + 1 := by
            have : s + (j + 1) = s + 1 + j := by omega
            rw [this]; omega
          rw [hidx, List.getElem?_cons_succ]
          exact ih2 j row hj
      · intro hnonl
        have hnonl1 : ∀ ch ∈ xs, ch ≠ '\n' := fun ch hch => hnonl ch (List.mem_cons_of_mem x hch)
        obtain ⟨g1, g2, g3⟩ := ih3 hnonl1
        rw [symbols_of_cons hnl]
        refine ⟨by simp [g1], ?_, ?_⟩
        · intro j row hj
          cases j with
          | zero =>
            simp only [List.singleton_append, List.getElem?_cons_zero, Option.some.injEq] at hj
            subst hj
            have h0 : T.getD (s + 0) 0 - p = 0 := by rw [Nat.add_zero]; omega
            rw [h0]
            simp
          | succ j =>
            simp only [List.singleton_append, List.getElem?_cons_succ] at hj
            have hjl : j < csv1.length := (List.getElem?_eq_some.mp hj).1
            have hr := hrange1 (s + 1 + j) (by omega) (by omega)
            have hidx : T.getD (s + (j + 1)) 0 - p = (T.getD (s + 1 + j) 0 - (p + 1)) + 1 := by
              have : s + (j + 1) = s + 1 + j := by omega
              rw [this]; omega
            rw [hidx, List.getElem?_cons_succ]
            exact g2 j row hj
        · intro i hi hfree
          cases i with
          | zero => exact absurd hpe.symm (by simpa using hfree s (le_refl s) hsl)
          | succ i =>
            rw [List.getElem?_cons_succ, List.getElem?_cons_succ]
            apply g3 i (by omega)
            intro k hk hkl
            have := hfree k (by omega) hkl
            omega
    · -- the position `p` is not in the table
      obtain ⟨hn, hrows, hs1, hd1⟩ := write_output_symbol_miss hc hsym
      subst hn; subst hrows
      rw [hs1, hd1] at hrec
      have hrange1 : ∀ k, s ≤ k → k < T.length →
          p + 1 ≤ T.getD k 0 ∧ T.getD k 0 < p + 1 + xs.length := by
        intro k hk hkl
        have h2 := hrange k hk hkl
        have h3 : T.getD k 0 ≠ p := by
          intro heq
          rcases Nat.eq_or_lt_of_le hk with hks | hks
          · subst hks
            exact hc ⟨hkl, by rw [hup, heq]⟩
          · have h1 := sorted_getD_lt hsorted hks hkl
            have h4 := hrange s (le_refl s) (by omega)
            omega
        omega
      obtain ⟨ih1, ih2, ih3⟩ := ih (p + 1) s _ draws out1 csv1 rest (by omega) hrange1 hrec
      have hcl : csv1.length = T.length - s := by
        have := congrArg List.length ih1
        rw [List.length_map, List.length_map, List.length_drop] at this
        exact this
      have hcsv1 : csv1 = csv := hcsv.symm
      subst hout; subst hcsv1
      refine ⟨ih1, ?_, ?_⟩
      · intro j row hj
        have hj : csv1[j]? = some row := hj
        have hjl : j < csv1.length := (List.getElem?_eq_some.mp hj).1
        have hr := hrange1 (s + j) (by omega) (by omega)
        have hidx : T.getD (s + j) 0 - p = (T.getD (s + j) 0 - (p + 1)) + 1 := by omega
        rw [hidx, List.getElem?_cons_succ]
        exact ih2 j row hj
      · intro hnonl
        have hnonl1 : ∀ ch ∈ xs, ch ≠ '\n' := fun ch hch => hnonl ch (List.mem_cons_of_mem n hch)
        have hnl : n ≠ '\n' := hnonl n (List.mem_cons_self n xs)
        obtain ⟨g1, g2, g3⟩ := ih3 hnonl1
        rw [symbols_of_cons hnl]
        refine ⟨by simp [g1], ?_, ?_⟩
        · intro j row hj
          have hj : csv1[j]? = some row := hj
          have hjl : j < csv1.length := (List.getElem?_eq_some.mp hj).1
          have hr := hrange1 (s + j) (by omega) (by omega)
          have hidx : T.getD (s + j) 0 - p = (T.getD (s + j) 0 - (p + 1)) + 1 := by omega
          rw [hidx, List.getElem?_cons_succ]
          exact g2 j row hj
        · intro i hi hfree
          cases i with
          | zero => simp
          | succ i =>
            rw [List.getElem?_cons_succ, List.getElem?_cons_succ]
            apply g3 i (by omega)
            intro k hk hkl
            have := hfree k hk hkl
            omega

theorem make_snp_loop_returns (x : Char) (d : List Nat) :
    ∃ n, make_snp_loop x ((if x = 'A' then 1 else 0) :: d) = some (n, d) := by
  by_cases hx : x = 'A'
  · subst hx
    refine ⟨'C', ?_⟩
    rw [if_pos rfl]
    simp only [make_snp_loop]
    have h1 : nucleotides.getD (1 % 4) 'A' = 'C' := rfl
    rw [h1, if_neg (by decide)]
  · refine ⟨'A', ?_⟩
    rw [if_neg hx]
    simp only [make_snp_loop]
    have h0 : nucleotides.getD (0 % 4) 'A' = 'A' := rfl
    rw [h0, if_neg (fun h => hx h.symm)]

/-- For every state of the writing loop some list of draws lets it finish. -/
theorem write_output_loop_returns (T : List Nat) (W : Int) :
    ∀ (xs : List Char) (p s : Nat) (c : Int),
      ∃ draws r, write_output_loop T W xs p s c draws = some r := by
  intro xs
  induction xs with
  | nil => intro p s c; exact ⟨[], _, rfl⟩
  | cons x xs ih =>
    intro p s c
    by_cases hc : s < T.length ∧ to_unsigned (p : Int) = T.getD s 0
    · obtain ⟨d, ⟨o, cs, rs⟩, hr⟩ := ih (p + 1) (s + 1) (line_break W c).2
      obtain ⟨n, hn⟩ := make_snp_loop_returns x d
      refine ⟨(if x = 'A' then 1 else 0) :: d, ?_⟩
      simp only [write_output_loop, write_output_symbol, if_pos hc, make_snp, hn, hr]
      exact ⟨_, rfl⟩
    · obtain ⟨d, ⟨o, cs, rs⟩, hr⟩ := ih (p + 1) s (line_break W c).2
      refine ⟨d, ?_⟩
      simp only [write_output_loop, write_output_symbol, if_neg hc, hr]
      exact ⟨_, rfl⟩

/-- When the loops of `make_snps` return, one position was stored for every
iteration of the outer loop. -/
theorem make_snps_loop_returned {L D : Int} (hL0 : 1 ≤ L) (hL : L < 2147483648)
    (hD0 : -2147483648 ≤ D) (hD1 : D < 2147483648) (draws : List Nat) :
    ∀ (todo : Nat) (t t1 : List Nat) (rest : List Nat), table_inv L D t →
      make_snps_loop L D todo draws t = .returned t1 rest → t1.length = t.length + todo := by
  have hne : L ≠ 0 := by omega
  induction draws with
  | nil =>
    intro todo t t1 rest _ h
    cases todo with
    | zero =>
      simp only [make_snps_loop, Run.returned.injEq] at h
      rw [← h.1]; rfl
    | succ n =>
      simp only [make_snps_loop, if_neg hne] at h
      exact absurd h (by simp)
  | cons r draws ih =>
    intro todo t t1 rest hinv h
    cases todo with
    | zero =>
      simp only [make_snps_loop, Run.returned.injEq] at h
      rw [← h.1]; rfl
    | succ n =>
      simp only [make_snps_loop, if_neg hne] at h
      obtain ⟨hp0, hp1⟩ := draw_range r hL0
      by_cases hok : position_ok t D (Int.tmod (r : Int) L) = 0
      · rw [if_pos hok] at h
        exact ih (n + 1) t t1 rest hinv h
      · rw [if_neg hok] at h
        have hinv1 := table_inv_insert hL hD0 hD1 hinv hp0 hp1 hok
        have h1 := ih n _ t1 rest hinv1 h
        have hb2 : ∀ q ∈ t ++ [to_unsigned (Int.tmod (r : Int) L)], q < 2147483648 := by
          have hu := to_unsigned_of_range hp0 (show Int.tmod (r : Int) L < 4294967296 by omega)
          intro q hq
          rcases List.mem_append.mp hq with hq1 | hq1
          · have := hinv.2.1 q hq1; omega
          · simp at hq1; omega
        have hlen := (qsort_perm _ hb2).length_eq
        rw [List.length_append] at hlen
        simp only [List.length_singleton] at hlen
        omega

/-- With a minimum distance of at least 1 the invariant makes the table
strictly ascending. -/
theorem table_inv_strict {L D : Int} {t : List Nat} (hD : 1 ≤ D) (hinv : table_inv L D t) :
    t.Sorted (· < ·) := by
  have h := table_inv_gaps hinv
  refine h.imp ?_
  intro a b hab
  omega

/-! ## Long header lines -/

/-- When the buffer of `fgets` is filled before a newline is met, the rest of
the line stays unread. -/
theorem fgets_loop_full (pre post : List Char) (h : ∀ c ∈ pre, c ≠ '\n') :
    fgets_loop pre.length (pre ++ post) = (pre, post, false) := by
  induction pre with
  | nil => cases post <;> rfl
  | cons c cs ih =>
    have hc : c ≠ '\n' := h c (List.mem_cons_self c cs)
    have hcs : ∀ d ∈ cs, d ≠ '\n' := fun d hd => h d (List.mem_cons_of_mem c hd)
    show fgets_loop (cs.length + 1) (c :: (cs ++ post)) = (c :: cs, post, false)
    simp only [fgets_loop, if_neg hc]
    rw [ih hcs]

theorem body_of_append (pre post : List Char) (h : ∀ c ∈ pre, c ≠ '\n') :
    body_of (pre ++ post) = body_of post := by
  induction pre with
  | nil => rfl
  | cons c cs ih =>
    have hc : c ≠ '\n' := h c (List.mem_cons_self c cs)
    have hcs : ∀ d ∈ cs, d ≠ '\n' := fun d hd => h d (List.mem_cons_of_mem c hd)
    show body_of (c :: (cs ++ post)) = body_of post
    simp only [body_of, if_neg hc]
    exact ih hcs

/-- With 1023 characters and no newline before `post`, `read_reference` runs
its reading loop on `post`, the rest of the header line included. -/
theorem read_reference_long_header (cs post : List Char) (hlen : cs.length = 1022)
    (h : ∀ c ∈ cs, c ≠ '\n') :
    read_reference ('>' :: cs ++ post) = read_reference_loop post false [] := by
  have hpre : ∀ c ∈ '>' :: cs, c ≠ '\n' := by
    intro c hc
    rcases List.mem_cons.mp hc with h1 | h1
    · rw [h1]; decide
    · exact h c h1
  have hf := fgets_loop_full ('>' :: cs) post hpre
  have hl : ('>' :: cs).length = 1023 := by simp [hlen]
  rw [hl] at hf
  unfold read_reference fgets
  simp only [Nat.add_one_sub_one]
  rw [hf]
  simp

/-! ## A table without positions -/

theorem write_output_loop_no_snps (W : Int) :
    ∀ (xs : List Char) (p s : Nat) (c : Int) (draws : List Nat),
      (∀ ch ∈ xs, ch ≠ '\n') →
      ∃ out, write_output_loop [] W xs p s c draws = some (out, [], draws) ∧
        symbols_of out = xs := by
  intro xs
  induction xs with
  | nil => intro p s c draws _; exact ⟨[], rfl, rfl⟩
  | cons x xs ih =>
    intro p s c draws hnl
    have hx : x ≠ '\n' := hnl x (List.mem_cons_self x xs)
    have hxs : ∀ ch ∈ xs, ch ≠ '\n' := fun ch hch => hnl ch (List.mem_cons_of_mem x hch)
    obtain ⟨out, hout, hsym⟩ := ih (p + 1) s (line_break W c).2 draws hxs
    refine ⟨x :: (line_break W c).1 ++ out, ?_, ?_⟩
    · have hsymb : write_output_symbol [] x p s draws = some (x, [], s, draws) := by
        unfold write_output_symbol
        rw [if_neg (by simp)]
      simp only [write_output_loop, hsymb, hout, List.nil_append]
    · rw [symbols_of_cons hx, hsym]

/-! ## Room for positions -/

/-- Positions that are pairwise `D` apart and lie between `lo` and `hi` span at
least `(n − 1) * D`. -/
theorem spaced_span (D : Int) :
    ∀ (t : List Nat) (lo hi : Int), t.Pairwise (fun (a b : Nat) => D ≤ (b : Int) - (a : Int)) →
      (∀ q ∈ t, lo ≤ (q : Int) ∧ (q : Int) ≤ hi) → t ≠ [] →
      ((t.length : Int) - 1) * D ≤ hi - lo := by
  intro t
  induction t with
  | nil => intro lo hi _ _ h; exact absurd rfl h
  | cons a rest ih =>
    intro lo hi hpw hrange _
    obtain ⟨hhead, htail⟩ := List.pairwise_cons.mp hpw
    have ha := hrange a (List.mem_cons_self a rest)
    by_cases hrest : rest = []
    · subst hrest
      simp only [List.length_singleton, Nat.cast_one, sub_self, zero_mul]
      omega
    · have hr : ∀ q ∈ rest, (a : Int) + D ≤ (q : Int) ∧ (q : Int) ≤ hi := by
        intro q hq
        have h1 := hhead q hq
        have h2 := hrange q (List.mem_cons_of_mem a hq)
        omega
      have h := ih ((a : Int) + D) hi htail hr hrest
      have hlen : (((a :: rest).length : Nat) : Int) - 1 = ((rest.length : Int) - 1) + 1 := by
        simp only [List.length_cons]; push_cast; ring
      rw [hlen]
      linarith

/-- Scanning an ascending table from the candidate `c` upwards finds a
candidate that is `D` away from every entry, at most `2 * D − 1` further for
each entry. -/
theorem free_candidate (D : Int) (hD : 1 ≤ D) :
    ∀ (t : List Nat), t.Sorted (· ≤ ·) → ∀ c : Int,
      ∃ c1 : Int, c ≤ c1 ∧ c1 ≤ c + (t.length : Int) * (2 * D - 1) ∧
        (∀ q ∈ t, D ≤ |c1 - (q : Int)|) ∧ (c1 = c ∨ ∃ q ∈ t, c1 = (q : Int) + D) := by
  intro t
  induction t with
  | nil => intro _ c; exact ⟨c, le_refl c, by simp, by simp, Or.inl rfl⟩
  | cons q rest ih =>
    intro hs c
    obtain ⟨hhead, htail⟩ := List.sorted_cons.mp hs
    have hlen : (((q :: rest).length : Nat) : Int) * (2 * D - 1)
        = (rest.length : Int) * (2 * D - 1) + (2 * D - 1) := by
      simp only [List.length_cons]; push_cast; ring
    rw [hlen]
    by_cases htrig : c - (q : Int) < D ∧ (q : Int) - c < D
    · obtain ⟨c1, h1, h2, h3, h4⟩ := ih htail ((q : Int) + D)
      refine ⟨c1, by omega, by linarith, ?_, ?_⟩
      · intro x hx
        rcases List.mem_cons.mp hx with hxq | hxr
        · subst hxq; rw [le_abs]; left; omega
        · exact h3 x hxr
      · right
        rcases h4 with h | ⟨x, hx, h⟩
        · exact ⟨q, List.mem_cons_self q rest, h⟩
        · exact ⟨x, List.mem_cons_of_mem q hx, h⟩
    · obtain ⟨c1, h1, h2, h3, h4⟩ := ih htail c
      refine ⟨c1, h1, by linarith, ?_, ?_⟩
      · intro x hx
        rcases List.mem_cons.mp hx with hxq | hxr
        · subst hxq
          rw [le_abs]
          rcases h4 with h | ⟨y, hy, h⟩
          · have : ¬ (c - (x : Int) < D) ∨ ¬ ((x : Int) - c < D) := by
              by_contra hcon
              push_neg at hcon
              exact htrig hcon
            omega
          · have := hhead y hy
            left; omega
        · exact h3 x hxr
      · rcases h4 with h | ⟨x, hx, h⟩
        · exact Or.inl h
        · exact Or.inr ⟨x, List.mem_cons_of_mem q hx, h⟩

/-- A table that satisfies the invariant and holds `k` positions with
`k * (2 * D − 1) < L` leaves a candidate that `position_ok` accepts. -/
theorem position_ok_candidate {L D : Int} {t : List Nat} (hL : L < 2147483648)
    (hD0 : 1 ≤ D) (hD1 : D < 2147483648) (hinv : table_inv L D t)
    (hk : (t.length : Int) * (2 * D - 1) < L) :
    ∃ p : Int, 0 ≤ p ∧ p < L ∧ position_ok t D p = 1 := by
  obtain ⟨c1, h1, h2, h3, _⟩ := free_candidate D hD0 t hinv.1 0
  have hb2 : ∀ q ∈ t, q < 2147483648 := fun q hq => by have := hinv.2.1 q hq; omega
  have hc : c1 < L := by linarith
  refine ⟨c1, h1, hc, ?_⟩
  rw [position_ok_eq_one_iff hinv.1 hb2 D h1 (by omega), to_unsigned_of_range (by omega) (by omega)]
  exact Or.inr h3

/-- While the loops of `make_snps` wait for a draw, the positions stored and
the iterations left add up to the positions asked for. -/
theorem make_snps_loop_waiting {L D : Int} (hL0 : 1 ≤ L) (hL : L < 2147483648)
    (hD0 : -2147483648 ≤ D) (hD1 : D < 2147483648) (draws : List Nat) :
    ∀ (todo : Nat) (t t1 : List Nat) (todo1 : Nat), table_inv L D t →
      make_snps_loop L D todo draws t = .waiting t1 todo1 →
      t1.length + todo1 = t.length + todo ∧ 1 ≤ todo1 := by
  have hne : L ≠ 0 := by omega
  induction draws with
  | nil =>
    intro todo t t1 todo1 _ h
    cases todo with
    | zero => simp [make_snps_loop] at h
    | succ n =>
      simp only [make_snps_loop, if_neg hne, Run.waiting.injEq] at h
      obtain ⟨h1, h2⟩ := h
      subst h1; subst h2
      exact ⟨rfl, by omega⟩
  | cons r draws ih =>
    intro todo t t1 todo1 hinv h
    cases todo with
    | zero => simp [make_snps_loop] at h
    | succ n =>
      simp only [make_snps_loop, if_neg hne] at h
      obtain ⟨hp0, hp1⟩ := draw_range r hL0
      by_cases hok : position_ok t D (Int.tmod (r : Int) L) = 0
      · rw [if_pos hok] at h
        exact ih (n + 1) t t1 todo1 hinv h
      · rw [if_neg hok] at h
        have hinv1 := table_inv_insert hL hD0 hD1 hinv hp0 hp1 hok
        have h1 := ih n _ t1 todo1 hinv1 h
        have hb2 : ∀ q ∈ t ++ [to_unsigned (Int.tmod (r : Int) L)], q < 2147483648 := by
          have hu := to_unsigned_of_range hp0 (show Int.tmod (r : Int) L < 4294967296 by omega)
          intro q hq
          rcases List.mem_append.mp hq with hq1 | hq1
          · have := hinv.2.1 q hq1; omega
          · simp at hq1; omega
        have hlen := (qsort_perm _ hb2).length_eq
        rw [List.length_append] at hlen
        simp only [List.length_singleton] at hlen
        omega

/-- When the positions asked for leave room, some list of draws makes the
loops of `make_snps` return. -/
theorem make_snps_loop_can_return {L D : Int} (hL0 : 1 ≤ L) (hL : L < 2147483648)
    (hD0 : 1 ≤ D) (hD1 : D < 2147483648) :
    ∀ (todo : Nat) (t : List Nat), table_inv L D t →
      (todo = 0 ∨ ((t.length : Int) + (todo : Int) - 1) * (2 * D - 1) < L) →
      ∃ draws t1 rest, make_snps_loop L D todo draws t = .returned t1 rest := by
  have hne : L ≠ 0 := by omega
  intro todo
  induction todo with
  | zero => intro t _ _; exact ⟨[], t, [], rfl⟩
  | succ n ih =>
    intro t hinv hroom
    have hroom1 : ((t.length : Int) + ((n + 1 : Nat) : Int) - 1) * (2 * D - 1) < L := by
      rcases hroom with h | h
      · exact absurd h (by omega)
      · exact h
    have hk : (t.length : Int) * (2 * D - 1) < L := by
      have h1 : (t.length : Int) * (2 * D - 1)
          ≤ ((t.length : Int) + ((n + 1 : Nat) : Int) - 1) * (2 * D - 1) := by
        apply mul_le_mul_of_nonneg_right
        · push_cast; omega
        · omega
      omega
    obtain ⟨p, hp0, hp1, hok⟩ := position_ok_candidate hL hD0 hD1 hinv hk
    have hr : Int.tmod ((p.toNat : Nat) : Int) L = p := by
      rw [Int.toNat_of_nonneg hp0]
      exact Int.tmod_eq_of_lt hp0 hp1
    have hok0 : ¬ (position_ok t D p = 0) := by omega
    have hinv1 := table_inv_insert hL (by omega) hD1 hinv hp0 hp1 hok0
    have hb2 : ∀ q ∈ t ++ [to_unsigned p], q < 2147483648 := by
      have hu := to_unsigned_of_range hp0 (show p < 4294967296 by omega)
      intro q hq
      rcases List.mem_append.mp hq with hq1 | hq1
      · have := hinv.2.1 q hq1; omega
      · simp at hq1; omega
    have hlen := (qsort_perm _ hb2).length_eq
    rw [List.length_append] at hlen
    simp only [List.length_singleton] at hlen
    have hroom2 : n = 0 ∨
        (((qsort (t ++ [to_unsigned p])).length : Int) + (n : Int) - 1) * (2 * D - 1) < L := by
      right
      have he : ((qsort (t ++ [to_unsigned p])).length : Int) + (n : Int) - 1
          = (t.length : Int) + ((n + 1 : Nat) : Int) - 1 := by
        rw [hlen]; push_cast; ring
      rw [he]
      exact hroom1
    obtain ⟨draws, t1, rest, hrun⟩ := ih _ hinv1 hroom2
    refine ⟨p.toNat :: draws, t1, rest, ?_⟩
    simp only [make_snps_loop, if_neg hne, hr, if_neg hok0]
    exact hrun

/-! ## Line wrapping -/

theorem line_break_of_lt (W c : Nat) (hc : c < W) (hW : W < 2147483648) :
    line_break (W : Int) (c : Int)
      = if c + 1 = W then (['\n'], 0) else ([], ((c + 1 : Nat) : Int)) := by
  have hw : wrap_int ((c : Int) + 1) = ((c + 1 : Nat) : Int) := by
    unfold wrap_int
    push_cast
    omega
  unfold line_break
  rw [hw]
  by_cases h : c + 1 = W
  · rw [if_pos h, if_pos (by exact_mod_cast h)]
  · rw [if_neg h, if_neg (by exact_mod_cast h)]

/-- The nucleotide chosen for a reference symbol that is not a line break is
not a line break. -/
theorem write_output_symbol_no_break {T : List Nat} {x : Char} {p s : Nat} {draws : List Nat}
    {n : Char} {rows : List CsvRow} {s1 : Nat} {d1 : List Nat} (hx : x ≠ '\n')
    (h : write_output_symbol T x p s draws = some (n, rows, s1, d1)) : n ≠ '\n' := by
  by_cases hc : s < T.length ∧ to_unsigned (p : Int) = T.getD s 0
  · obtain ⟨hn, _⟩ := write_output_symbol_hit hc h
    intro hcon
    rw [hcon] at hn
    exact absurd hn (by decide)
  · obtain ⟨hn, _⟩ := write_output_symbol_miss hc h
    rw [hn]; exact hx

/-- The writing loop lays the nucleotides it writes out in lines of `W`. -/
theorem write_output_loop_shape (T : List Nat) (W : Nat) (hW : W < 2147483648) :
    ∀ (xs : List Char) (p s c : Nat) (draws : List Nat) (out : List Char)
      (csv : List CsvRow) (rest : List Nat),
      (∀ ch ∈ xs, ch ≠ '\n') → c < W →
      write_output_loop T (W : Int) xs p s (c : Int) draws = some (out, csv, rest) →
      ∃ syms : List Char, syms.length = xs.length ∧ (∀ ch ∈ syms, ch ≠ '\n') ∧
        out = wrap_col W c syms := by
  intro xs
  induction xs with
  | nil =>
    intro p s c draws out csv rest _ _ h
    simp only [write_output_loop, Option.some.injEq, Prod.mk.injEq] at h
    exact ⟨[], rfl, by simp, h.1.symm⟩
  | cons x xs ih =>
    intro p s c draws out csv rest hnl hc h
    have hx : x ≠ '\n' := hnl x (List.mem_cons_self x xs)
    have hxs : ∀ ch ∈ xs, ch ≠ '\n' := fun ch hch => hnl ch (List.mem_cons_of_mem x hch)
    obtain ⟨n, rows, s1, d1, out1, csv1, hsym, hrec, hout, _⟩ := write_output_loop_cons h
    have hn := write_output_symbol_no_break hx hsym
    rw [line_break_of_lt W c hc hW] at hrec hout
    by_cases hcw : c + 1 = W
    · rw [if_pos hcw] at hrec hout
      obtain ⟨syms, h1, h2, h3⟩ := ih (p + 1) s1 0 d1 out1 csv1 rest hxs (by omega)
        (by simpa using hrec)
      refine ⟨n :: syms, by simp [h1], ?_, ?_⟩
      · intro ch hch
        rcases List.mem_cons.mp hch with hh | hh
        · rw [hh]; exact hn
        · exact h2 ch hh
      · rw [hout, h3]
        simp only [wrap_col, if_pos hcw]
        rfl
    · rw [if_neg hcw] at hrec hout
      obtain ⟨syms, h1, h2, h3⟩ := ih (p + 1) s1 (c + 1) d1 out1 csv1 rest hxs (by omega) hrec
      refine ⟨n :: syms, by simp [h1], ?_, ?_⟩
      · intro ch hch
        rcases List.mem_cons.mp hch with hh | hh
        · rw [hh]; exact hn
        · exact h2 ch hh
      · rw [hout, h3]
        simp only [wrap_col, if_neg hcw]
        rfl

theorem symbols_of_wrap_col (W : Nat) :
    ∀ (syms : List Char) (c : Nat), (∀ ch ∈ syms, ch ≠ '\n') →
      symbols_of (wrap_col W c syms) = syms := by
  intro syms
  induction syms with
  | nil => intro c _; rfl
  | cons x xs ih =>
    intro c hnl
    have hx : x ≠ '\n' := hnl x (List.mem_cons_self x xs)
    have hxs : ∀ ch ∈ xs, ch ≠ '\n' := fun ch hch => hnl ch (List.mem_cons_of_mem x hch)
    simp only [wrap_col]
    split
    · have h := ih 0 hxs
      unfold symbols_of at h ⊢
      rw [List.filter_cons, if_pos (by simpa using hx), List.filter_cons,
        if_neg (by simp), h]
    · have h := ih (c + 1) hxs
      unfold symbols_of at h ⊢
      rw [List.filter_cons, if_pos (by simpa using hx), h]

theorem wrap_col_length (W : Nat) (hW : 1 ≤ W) :
    ∀ (syms : List Char) (c : Nat), c < W →
      (wrap_col W c syms).length = syms.length + (c + syms.length) / W := by
  intro syms
  induction syms with
  | nil =>
    intro c hc
    simp only [wrap_col, List.length_nil, Nat.add_zero, Nat.zero_add]
    exact (Nat.div_eq_of_lt hc).symm
  | cons x xs ih =>
    intro c hc
    simp only [wrap_col]
    split
    · rename_i hcw
      simp only [List.length_cons]
      rw [ih 0 (by omega)]
      have h1 : c + (xs.length + 1) = W + xs.length := by omega
      rw [h1, Nat.add_div_left _ (by omega), Nat.zero_add]
      omega
    · rename_i hcw
      simp only [List.length_cons]
      rw [ih (c + 1) (by omega)]
      have h1 : c + 1 + xs.length = c + (xs.length + 1) := by omega
      rw [h1]
      omega

/-- In the laid-out text the line breaks are exactly the characters that
complete a group of `W + 1`, counted from the start of the current line. -/
theorem wrap_col_breaks (W : Nat) (hW : 1 ≤ W) :
    ∀ (syms : List Char) (c : Nat), c < W → (∀ ch ∈ syms, ch ≠ '\n') →
      ∀ j, j < (wrap_col W c syms).length →
        ((wrap_col W c syms)[j]? = some '\n' ↔ (c + j + 1) % (W + 1) = 0) := by
  intro syms
  induction syms with
  | nil => intro c _ _ j hj; simp [wrap_col] at hj
  | cons x xs ih =>
    intro c hc hnl j hj
    have hx : x ≠ '\n' := hnl x (List.mem_cons_self x xs)
    have hxs : ∀ ch ∈ xs, ch ≠ '\n' := fun ch hch => hnl ch (List.mem_cons_of_mem x hch)
    simp only [wrap_col] at hj ⊢
    by_cases hcw : c + 1 = W
    · rw [if_pos hcw] at hj ⊢
      cases j with
      | zero =>
        simp only [List.getElem?_cons_zero, Option.some.injEq, Nat.add_zero]
        have h1 : (c + 1) % (W + 1) = c + 1 := Nat.mod_eq_of_lt (by omega)
        constructor
        · intro h; exact absurd h hx
        · intro h; omega
      | succ j =>
        cases j with
        | zero =>
          simp only [List.getElem?_cons_succ, List.getElem?_cons_zero, Nat.zero_add]
          have h1 : c + 1 + 1 = W + 1 := by omega
          rw [h1, Nat.mod_self]
          simp
        | succ k =>
          simp only [List.getElem?_cons_succ]
          simp only [List.length_cons] at hj
          have h := ih 0 (by omega) hxs k (by omega)
          rw [h]
          have h1 : c + (k + 1 + 1) + 1 = 0 + k + 1 + (W + 1) := by omega
          rw [h1, Nat.add_mod_right]
    · rw [if_neg hcw] at hj ⊢
      cases j with
      | zero =>
        simp only [List.getElem?_cons_zero, Option.some.injEq, Nat.add_zero]
        have h1 : (c + 1) % (W + 1) = c + 1 := Nat.mod_eq_of_lt (by omega)
        constructor
        · intro h; exact absurd h hx
        · intro h; omega
      | succ k =>
        simp only [List.getElem?_cons_succ]
        simp only [List.length_cons] at hj
        have h := ih (c + 1) (by omega) hxs k (by omega)
        rw [h]
        have h1 : c + (k + 1) + 1 = c + 1 + k + 1 := by omega
        rw [h1]

/-! ## The SNP count on the command line -/

theorem parse_finish_count {g g1 : Globals} {printed : List String}
    (h : parse_finish g = .returned g1 printed) :
    g1.n_snps_to_insert = g.n_snps_to_insert := by
  unfold parse_finish at h
  split at h
  · exact absurd h (by simp)
  · split at h
    · exact absurd h (by simp)
    · simp only [Parsed.returned.injEq] at h
      obtain ⟨h1, _⟩ := h
      rw [← h1]
      split <;> rfl

/-- A property of the SNP count that holds at the start of the loop of
`parse_command_line_args`, and for every value that a `-n` option passes the
range check with, holds when the function returns. -/
theorem parse_loop_count (argv : List (List Char)) (P : Int → Prop)
    (hn : ∀ i, i < argv.length → (argv.getD i []).head? = some '-' →
      (argv.getD i []).getD 1 (Char.ofNat 0) = 'n' →
      ¬ ((parse_int argv i).1 < 1 ∨ (parse_int argv i).1 > (MAX_SNPS : Int)) →
      P (parse_int argv i).1) :
    ∀ (fuel i : Nat) (g g1 : Globals) (printed : List String), P g.n_snps_to_insert →
      parse_loop argv fuel i g = .returned g1 printed → P g1.n_snps_to_insert := by
  intro fuel
  induction fuel with
  | zero =>
    intro i g g1 printed hP h
    simp only [parse_loop] at h
    rw [parse_finish_count h]; exact hP
  | succ fuel ih =>
    intro i g g1 printed hP h
    simp only [parse_loop] at h
    split at h
    · rename_i hi
      split at h
      · rename_i hhead
        split at h
        · refine ih _ _ _ _ ?_ h; exact hP
        · refine ih _ _ _ _ ?_ h; exact hP
        · refine ih _ _ _ _ ?_ h; exact hP
        · rename_i hopt
          split at h
          · exact absurd h (by simp)
          · rename_i hrange
            refine ih _ _ _ _ ?_ h
            exact hn i hi hhead hopt hrange
        · refine ih _ _ _ _ ?_ h; exact hP
        · refine ih _ _ _ _ ?_ h; exact hP
        · refine ih _ _ _ _ ?_ h; exact hP
        · exact absurd h (by simp)
      · exact ih _ _ _ _ hP h
    · rw [parse_finish_count h]; exact hP

/-- A `-n` option whose value fails the range check ends the run. -/
theorem parse_loop_count_rejected (argv : List (List Char)) (fuel i : Nat) (g : Globals)
    (hi : i < argv.length) (hhead : (argv.getD i []).head? = some '-')
    (hopt : (argv.getD i []).getD 1 (Char.ofNat 0) = 'n')
    (hbad : (parse_int argv i).1 < 1 ∨ (parse_int argv i).1 > (MAX_SNPS : Int)) :
    parse_loop argv (fuel + 1) i g
      = .exit 1 ["Error: number of SNPs must be between 1 and 10000."] := by
  simp only [parse_loop, if_pos hi, if_pos hhead, hopt, if_pos hbad]

/-- The library routine `atoi` gives 0 on a string that does not start with a
digit, a sign or white space. -/
theorem atoi_no_number (c : Char) (cs : List Char) (hd : ¬ (48 ≤ c.toNat ∧ c.toNat ≤ 57))
    (hs : isspace c = false) (hminus : c ≠ '-') (hplus : c ≠ '+') :
    atoi (c :: cs) = 0 := by
  unfold atoi
  have hdrop : (c :: cs).dropWhile isspace = c :: cs := by
    simp [List.dropWhile, hs]
  rw [hdrop]
  split
  · rename_i heq
    simp only [List.cons.injEq] at heq
    exact absurd heq.1 hminus
  · rename_i heq
    simp only [List.cons.injEq] at heq
    exact absurd heq.1 hplus
  · simp only [atoi_digits, if_neg hd]
    decide

theorem atoi_digits_append (rest : List Char)
    (hrest : ∀ c cs, rest = c :: cs → ¬ (48 ≤ c.toNat ∧ c.toNat ≤ 57)) :
    ∀ (digits : List Char) (acc : Nat), (∀ c ∈ digits, 48 ≤ c.toNat ∧ c.toNat ≤ 57) →
      atoi_digits (digits ++ rest) (acc : Int) = (decimal_from digits acc : Int) := by
  intro digits
  induction digits with
  | nil =>
    intro acc _
    cases rest with
    | nil => rfl
    | cons c cs =>
      have hc := hrest c cs rfl
      show atoi_digits (c :: cs) (acc : Int) = (acc : Int)
      simp only [atoi_digits, if_neg hc]
  | cons d ds ih =>
    intro acc hd
    have h1 := hd d (List.mem_cons_self d ds)
    have h2 : ∀ c ∈ ds, 48 ≤ c.toNat ∧ c.toNat ≤ 57 :=
      fun c hc => hd c (List.mem_cons_of_mem d hc)
    have hcast : (acc : Int) * 10 + ((d.toNat : Int) - 48)
        = ((acc * 10 + (d.toNat - 48) : Nat) : Int) := by
      omega
    show atoi_digits (d :: (ds ++ rest)) (acc : Int)
      = (decimal_from ds (acc * 10 + (d.toNat - 48)) : Int)
    simp only [atoi_digits, if_pos h1]
    rw [hcast]
    exact ih _ h2

/-- The library routine `atoi` reads a string that starts with digits as the
number its leading digits spell, whatever follows them, when that number is in
the range of `int`. -/
theorem atoi_leading_digits (d : Char) (ds rest : List Char)
    (hd : ∀ c ∈ d :: ds, 48 ≤ c.toNat ∧ c.toNat ≤ 57)
    (hrest : ∀ c cs, rest = c :: cs → ¬ (48 ≤ c.toNat ∧ c.toNat ≤ 57))
    (hval : decimal_value (d :: ds) ≤ 2147483647) :
    atoi (d :: ds ++ rest) = (decimal_value (d :: ds) : Int) := by
  have h1 := hd d (List.mem_cons_self d ds)
  have hs : isspace d = false := by
    unfold isspace
    have hne : d ≠ ' ' := by
      intro h; rw [h] at h1; exact absurd h1 (by decide)
    have hrange : ¬ (9 ≤ d.toNat ∧ d.toNat ≤ 13) := by omega
    simp [hne, hrange]
  have hdrop : (d :: ds ++ rest).dropWhile isspace = d :: ds ++ rest := by
    simp [List.dropWhile, hs]
  have hdig := atoi_digits_append rest hrest (d :: ds) 0 hd
  have hz : ((0 : Nat) : Int) = 0 := rfl
  rw [hz] at hdig
  have hres : wrap_int (strtol_result ((decimal_from (d :: ds) 0 : Nat) : Int))
      = ((decimal_from (d :: ds) 0 : Nat) : Int) := by
    have hv : decimal_from (d :: ds) 0 ≤ 2147483647 := hval
    unfold strtol_result LONG_MAX LONG_MIN wrap_int
    rw [if_neg (by omega), if_neg (by omega)]
    omega
  unfold atoi
  rw [hdrop]
  split
  · rename_i heq
    simp only [List.cons_append, List.cons.injEq] at heq
    have := heq.1
    rw [this] at h1
    exact absurd h1 (by decide)
  · rename_i heq
    simp only [List.cons_append, List.cons.injEq] at heq
    have := heq.1
    rw [this] at h1
    exact absurd h1 (by decide)
  · rw [hdig]
    exact hres

/-- A token returned by `parse_string` does not start with `-`. -/
theorem parse_string_token (argv : List (List Char)) (i : Nat) (token : List Char)
    (h : (parse_string argv i).1 = some token) : token.head? ≠ some '-' := by
  unfold parse_string at h
  simp only [] at h
  split at h
  · split at h
    · exact absurd h (by simp)
    · rename_i heq hne
      simp only [Option.some.injEq] at h
      rw [← h]; exact hne
  · exact absurd h (by simp)

theorem parse_int_of_token (argv : List (List Char)) (i : Nat) (token : List Char)
    (h : (parse_string argv i).1 = some token) : (parse_int argv i).1 = atoi token := by
  unfold parse_int
  simp only [h]

theorem parse_int_of_none (argv : List (List Char)) (i : Nat)
    (h : (parse_string argv i).1 = none) : (parse_int argv i).1 = -1 := by
  unfold parse_int
  simp only [h]

/-! ## The bins of display_snp_stats -/

theorem bin_size_eq (L : Nat) (hL : L < 2147483648) :
    to_unsigned (Int.tdiv (L : Int) 10) = L / 10 := by
  rw [Int.tdiv_eq_ediv (by omega) (by omega)]
  have h := to_unsigned_of_range (show (0 : Int) ≤ (L : Int) / 10 by omega)
    (show (L : Int) / 10 < 4294967296 by omega)
  omega

/-- When the reference length is not a multiple of 10, the last position of the
reference makes `display_snp_stats` divide by zero or leave the array of bins. -/
theorem display_snp_stats_last_position (L : Nat) (D : Int) (h1 : 1 ≤ L)
    (h2 : L < 2147483648) (hnd : L % 10 ≠ 0) :
    display_snp_stats (L : Int) [L - 1] D = .div_by_zero ∨
    ∃ b : Int, 10 ≤ b ∧ display_snp_stats (L : Int) [L - 1] D = .out_of_range b := by
  have hbs := bin_size_eq L h2
  by_cases hm : L / 10 = 0
  · left
    simp only [display_snp_stats, display_snp_stats_count, hbs, if_pos hm]
  · right
    have hmod : (L - 1) % 4294967296 = L - 1 := Nat.mod_eq_of_lt (by omega)
    have hge : 10 ≤ (L - 1) / (L / 10) := by
      rw [Nat.le_div_iff_mul_le (by omega)]
      omega
    have hle : (L - 1) / (L / 10) ≤ L - 1 := Nat.div_le_self _ _
    have hti : to_int ((L - 1) / (L / 10)) = (((L - 1) / (L / 10) : Nat) : Int) :=
      to_int_of_lt (by omega)
    refine ⟨(((L - 1) / (L / 10) : Nat) : Int), by omega, ?_⟩
    simp only [display_snp_stats, display_snp_stats_count, hbs, if_neg hm, hmod, hti]
    rw [if_neg (by omega)]

/-- When the reference length is a multiple of 10, every position of the
reference gets a bin index in `[0, 10)`. -/
theorem display_snp_stats_index (L q : Nat) (h1 : 1 ≤ L) (h2 : L < 2147483648)
    (hd : L % 10 = 0) (hq : q < L) :
    to_unsigned (Int.tdiv (L : Int) 10) ≠ 0 ∧
    0 ≤ to_int (q % 4294967296 / to_unsigned (Int.tdiv (L : Int) 10)) ∧
    to_int (q % 4294967296 / to_unsigned (Int.tdiv (L : Int) 10)) < 10 := by
  rw [bin_size_eq L h2]
  have hmod : q % 4294967296 = q := Nat.mod_eq_of_lt (by omega)
  have hlt : q / (L / 10) < 10 := by
    rw [Nat.div_lt_iff_lt_mul (by omega)]
    omega
  have hti : to_int (q / (L / 10)) = ((q / (L / 10) : Nat) : Int) :=
    to_int_of_lt (Nat.lt_trans hlt (by decide))
  rw [hmod, hti]
  exact ⟨by omega, Int.ofNat_nonneg _, by exact_mod_cast hlt⟩

/-! ## The written symbols against the reference -/

/-- The rows that the writing loop puts on the SNP list file are the
differences between the reference symbols and the symbols it writes. -/
theorem write_output_loop_differences (T : List Nat) (W : Int) :
    ∀ (xs : List Char) (p s : Nat) (c : Int) (draws : List Nat) (out : List Char)
      (csv : List CsvRow) (rest : List Nat),
      p + xs.length < 2147483648 → (∀ ch ∈ xs, ch ≠ '\n') →
      write_output_loop T W xs p s c draws = some (out, csv, rest) →
      differences p xs (symbols_of out) = csv := by
  intro xs
  induction xs with
  | nil =>
    intro p s c draws out csv rest _ _ h
    simp only [write_output_loop, Option.some.injEq, Prod.mk.injEq] at h
    rw [← h.1, ← h.2.1]
    rfl
  | cons x xs ih =>
    intro p s c draws out csv rest hbound hnl h
    have hx : x ≠ '\n' := hnl x (List.mem_cons_self x xs)
    have hxs : ∀ ch ∈ xs, ch ≠ '\n' := fun ch hch => hnl ch (List.mem_cons_of_mem x hch)
    have hlen : (x :: xs).length = xs.length + 1 := List.length_cons x xs
    rw [hlen] at hbound
    obtain ⟨n, rows, s1, d1, out1, csv1, hsym, hrec, hout, hcsv⟩ := write_output_loop_cons h
    have hn := write_output_symbol_no_break hx hsym
    have hih := ih (p + 1) s1 _ d1 out1 csv1 rest (by omega) hxs hrec
    rw [hout, symbols_of_cons hn, hcsv]
    by_cases hc : s < T.length ∧ to_unsigned (p : Int) = T.getD s 0
    · obtain ⟨_, hn2, hrows, _⟩ := write_output_symbol_hit hc hsym
      have hup : to_unsigned (p : Int) = p := by
        have := to_unsigned_of_range (show (0 : Int) ≤ (p : Int) by omega)
          (show (p : Int) < 4294967296 by omega)
        omega
      have hpos : to_int (T.getD s 0) = (p : Int) := by
        rw [← hc.2, hup]
        exact to_int_of_lt (by omega)
      rw [hrows, hpos]
      have hxn : ¬ (x = n) := fun h => hn2 h.symm
      simp only [differences, hih, List.singleton_append]
      rw [if_neg hxn]
    · obtain ⟨hn2, hrows, _, _⟩ := write_output_symbol_miss hc hsym
      rw [hrows, hn2]
      simp only [differences, if_true, hih, List.nil_append]

/-- Every difference names a position at which the two symbol lists differ. -/
theorem differences_mem :
    ∀ (xs ys : List Char) (p : Nat) (row : CsvRow), row ∈ differences p xs ys →
      ∃ i : Nat, row.position = ((p + i : Nat) : Int) ∧ xs[i]? = some row.reference ∧
        ys[i]? = some row.snp ∧ row.reference ≠ row.snp := by
  intro xs
  induction xs with
  | nil => intro ys p row h; simp [differences] at h
  | cons x xs ih =>
    intro ys p row h
    cases ys with
    | nil => simp [differences] at h
    | cons y ys =>
      simp only [differences] at h
      by_cases hxy : x = y
      · rw [if_pos hxy] at h
        obtain ⟨i, h1, h2, h3, h4⟩ := ih ys (p + 1) row h
        refine ⟨i + 1, ?_, ?_, ?_, h4⟩
        · rw [h1]; push_cast; omega
        · rw [List.getElem?_cons_succ]; exact h2
        · rw [List.getElem?_cons_succ]; exact h3
      · rw [if_neg hxy] at h
        rcases List.mem_cons.mp h with h0 | h0
        · subst h0
          exact ⟨0, rfl, List.getElem?_cons_zero, List.getElem?_cons_zero, hxy⟩
        · obtain ⟨i, h1, h2, h3, h4⟩ := ih ys (p + 1) row h0
          refine ⟨i + 1, ?_, ?_, ?_, h4⟩
          · rw [h1]; push_cast; omega
          · rw [List.getElem?_cons_succ]; exact h2
          · rw [List.getElem?_cons_succ]; exact h3

/-- At a position that no difference names, the two symbol lists agree. -/
theorem differences_same :
    ∀ (xs ys : List Char) (p i : Nat), i < xs.length → i < ys.length →
      (∀ row ∈ differences p xs ys, row.position ≠ ((p + i : Nat) : Int)) →
      ys[i]? = xs[i]? := by
  intro xs
  induction xs with
  | nil => intro ys p i h; simp at h
  | cons x xs ih =>
    intro ys p i hx hy hfree
    cases ys with
    | nil => simp at hy
    | cons y ys =>
      simp only [differences] at hfree
      by_cases hxy : x = y
      · rw [if_pos hxy] at hfree
        cases i with
        | zero => simp [hxy]
        | succ i =>
          rw [List.getElem?_cons_succ, List.getElem?_cons_succ]
          apply ih ys (p + 1) i (by simpa using hx) (by simpa using hy)
          intro row hrow
          have := hfree row hrow
          intro hcon
          apply this
          rw [hcon]; push_cast; omega
      · rw [if_neg hxy] at hfree
        cases i with
        | zero =>
          exact absurd rfl (hfree ⟨(p : Int), x, y⟩ (List.mem_cons_self _ _))
        | succ i =>
          rw [List.getElem?_cons_succ, List.getElem?_cons_succ]
          apply ih ys (p + 1) i (by simpa using hx) (by simpa using hy)
          intro row hrow
          have := hfree row (List.mem_cons_of_mem _ hrow)
          intro hcon
          apply this
          rw [hcon]; push_cast; omega

/-- A `-n` option whose value passes the range check sets the count, and the
loop goes on after the value. -/
theorem parse_loop_count_accepted (argv : List (List Char)) (fuel i : Nat) (g : Globals)
    (hi : i < argv.length) (hhead : (argv.getD i []).head? = some '-')
    (hopt : (argv.getD i []).getD 1 (Char.ofNat 0) = 'n')
    (hgood : ¬ ((parse_int argv i).1 < 1 ∨ (parse_int argv i).1 > (MAX_SNPS : Int))) :
    parse_loop argv (fuel + 1) i g
      = parse_loop argv fuel ((parse_int argv i).2 + 1)
          { g with n_snps_to_insert := (parse_int argv i).1 } := by
  simp only [parse_loop, if_pos hi, if_pos hhead, hopt, if_neg hgood]

/-! ## Claims -/

/-- C1: for every reference length `L ≥ 1`, every minimum distance `D` and every
list of draws, the table held by `make_snps` started from the empty table (so
the table after each accepted insertion, a list of draws being any prefix of a
stream) is ascending, has all entries in `[0, L)`, and has every adjacent pair,
and every pair, of entries at least `D` apart.  `L` and `D` range over `int`. -/
theorem make_snps_table_invariant (L N D : Int) (draws : List Nat)
    (hL0 : 1 ≤ L) (hL : L < 2147483648) (hD0 : -2147483648 ≤ D) (hD1 : D < 2147483648) :
    ((make_snps L N D draws []).table).Sorted (· ≤ ·) ∧
    (∀ q ∈ (make_snps L N D draws []).table, 0 ≤ (q : Int) ∧ (q : Int) < L) ∧
    ((make_snps L N D draws []).table).Chain' (fun (a b : Nat) => D ≤ (b : Int) - (a : Int)) ∧
    ((make_snps L N D draws []).table).Pairwise
      (fun (a b : Nat) => D ≤ (b : Int) - (a : Int)) := by
  have hinv := make_snps_loop_inv hL0 hL hD0 hD1 draws N.toNat [] (table_inv_nil L D)
  have hgap := table_inv_gaps hinv
  unfold make_snps
  exact ⟨hinv.1, fun q hq => ⟨Int.ofNat_nonneg q, hinv.2.1 q hq⟩, hgap.chain', hgap⟩

/-- Witness of C1: reference length 10, 2 positions, minimum distance 3. -/
theorem make_snps_table_invariant_witness :
    ((1 : Int) ≤ 10 ∧ (10 : Int) < 2147483648 ∧ (-2147483648 : Int) ≤ 3
      ∧ (3 : Int) < 2147483648) ∧
    make_snps 10 2 3 [3, 4, 5, 6, 7] [] = .returned [3, 6] [7] ∧
    ((make_snps 10 2 3 [3, 4, 5, 6, 7] []).table).Pairwise
      (fun (a b : Nat) => (3 : Int) ≤ (b : Int) - (a : Int)) :=
  ⟨by decide, by decide,
    (make_snps_table_invariant 10 2 3 [3, 4, 5, 6, 7]
      (by decide) (by decide) (by decide) (by decide)).2.2.2⟩

/-- C2: with the minimum distance −1 (the value `parse_int` gives for `-m`
without a number), the table `[5]` and the candidate 20, the insertion index is
1 and the acceptance rule holds (20 − 5 ≥ −1), but `position_ok` returns 0:
the difference is compared with −1 converted to `unsigned int`. -/
theorem position_ok_negative_distance :
    (parse_int ["makesnps".toList, "-i".toList, "a".toList, "-m".toList] 3).1 = -1 ∧
    is_insertion_index [5] 20 1 ∧ accept_rule [5] (-1) 20 1 ∧
    position_ok [5] (-1) 20 = 0 := by
  refine ⟨by decide, by decide, by decide, by decide⟩

/-- C6: whenever `make_snp` returns, the nucleotide it returns is one of A, C,
G, T and differs from `current_n`; the row it writes records the position, the
reference nucleotide and that same new nucleotide. -/
theorem make_snp_differs (position : Int) (current_n : Char) (draws : List Nat)
    (new_n : Char) (row : CsvRow) (rest : List Nat)
    (h : make_snp position current_n draws = some (new_n, row, rest)) :
    new_n ∈ ['A', 'C', 'G', 'T'] ∧ new_n ≠ current_n ∧
      row = ⟨position, current_n, new_n⟩ := by
  obtain ⟨h1, h2, h3⟩ := make_snp_spec position current_n draws new_n row rest h
  exact ⟨h1, h2, h3⟩

/-- Witness of C6: the reference nucleotide G with the draws 2, 6, 3. -/
theorem make_snp_differs_witness :
    make_snp 7 'G' [2, 6, 3] = some ('T', ⟨7, 'G', 'T'⟩, []) ∧
    ('T' ∈ ['A', 'C', 'G', 'T'] ∧ 'T' ≠ 'G' ∧ (⟨7, 'G', 'T'⟩ : CsvRow) = ⟨7, 'G', 'T'⟩) :=
  ⟨by decide, make_snp_differs 7 'G' [2, 6, 3] 'T' ⟨7, 'G', 'T'⟩ [] (by decide)⟩

/-- C9: a text with a valid header line and a body without A, C, G or T is
loaded without error as an empty reference with `reference_size = 0`, and
`make_snps` then evaluates `random() % 0` on its first draw. -/
theorem empty_reference_not_rejected :
    read_reference ">ref\nNNNN\n".toList = .ok [] 0 ∧
    ∀ (D : Int) (draws : List Nat), make_snps 0 1000 D draws [] = .div_by_zero [] := by
  refine ⟨by decide, ?_⟩
  intro D draws
  cases draws <;> rfl

/-- C10: on `makesnps -i a -o b`, where the SNP list file `-c` is missing,
`parse_command_line_args` prints its error line and returns a configuration
with `snp_list_filename` null; it exits with status 1 when `-i` or `-o` is the
missing one. -/
theorem missing_snp_list_not_rejected :
    parse_command_line_args
        ["makesnps".toList, "-i".toList, "a".toList, "-o".toList, "b".toList]
      = .returned
          { input_filename := some ['a'], output_filename := some ['b'],
            snp_list_filename := none, default_id := none }
          ["Error: You must specify a SNP list filename."] ∧
    parse_command_line_args
        ["makesnps".toList, "-c".toList, "c".toList, "-o".toList, "b".toList]
      = .exit 1 ["Error: You must specify an input file."] ∧
    parse_command_line_args
        ["makesnps".toList, "-i".toList, "a".toList, "-c".toList, "c".toList]
      = .exit 1 ["Error: You must specify an output file."] := by
  refine ⟨by decide, by decide, by decide⟩

/-- C7: for every input text that starts with `>`, whose header line (up to and
including its newline) has at most 1023 characters and whose body contains no
`>`, `read_reference` stores exactly the body's letters A, C, G, T of either
case, upper-cased and in their order, and sets `reference_size` to their
number; every other body character is dropped.  The text is shorter than 2^31
characters, the range of the `int` counter. -/
theorem read_reference_loads (text : List Char) (hhead : text.head? = some '>')
    (hline : (header_line text).length ≤ 1023) (hbody : '>' ∉ body_of text)
    (hsize : text.length < 2147483648) :
    read_reference text =
      .ok (((body_of text).filter (fun c => decide (c ∈ nucleotide_letters))).map toupper)
        (((body_of text).filter (fun c => decide (c ∈ nucleotide_letters))).length : Int) ∧
    (∀ c ∈ nucleotide_letters, toupper c ∈ nucleotides) ∧
    (∀ c, is_nucleotide c = 0 ↔ c ∉ nucleotide_letters) := by
  refine ⟨?_, by decide, ?_⟩
  · rw [read_reference_eq text hline]
    have hne : text ≠ [] := by intro h; rw [h] at hhead; simp at hhead
    rw [if_neg hne, if_neg (by simp [hhead]), if_neg hbody]
    unfold read_reference_finish
    have h1 := body_of_length_le text
    have h2 := List.length_filter_le (fun c => decide (c ∈ nucleotide_letters)) (body_of text)
    have hw : wrap_int
        (((body_of text).filter (fun c => decide (c ∈ nucleotide_letters))).length : Int)
        = (((body_of text).filter (fun c => decide (c ∈ nucleotide_letters))).length : Int) := by
      unfold wrap_int
      omega
    simp only [List.length_map]
    rw [hw]
  · intro c
    have h := is_nucleotide_ne_zero_iff c
    constructor
    · intro h0 hm; exact (h.mpr hm) h0
    · intro hm; by_contra h0; exact hm (h.mp h0)

/-- Witness of C7: a two-line body with lower-case letters, an N and blanks. -/
theorem read_reference_loads_witness :
    (">chr1 test\nACgt\nNa t\n".toList.head? = some '>' ∧
      (header_line ">chr1 test\nACgt\nNa t\n".toList).length ≤ 1023 ∧
      '>' ∉ body_of ">chr1 test\nACgt\nNa t\n".toList ∧
      ">chr1 test\nACgt\nNa t\n".toList.length < 2147483648) ∧
    read_reference ">chr1 test\nACgt\nNa t\n".toList
      = .ok ['A', 'C', 'G', 'T', 'A', 'T'] 6 :=
  ⟨⟨by decide, by decide, by decide, by decide⟩,
    (read_reference_loads ">chr1 test\nACgt\nNa t\n".toList (by decide) (by decide)
      (by decide) (by decide)).1⟩

/-- C8: for every input text whose header line has at most 1023 characters,
`read_reference` exits (with status 1) if and only if the text is empty, or its
first character is not `>`, or a `>` occurs after the header line; in every
other case it returns a reference. -/
theorem read_reference_aborts_iff (text : List Char)
    (hline : (header_line text).length ≤ 1023) :
    ((∃ status message, read_reference text = .exit status message) ↔
      (text = [] ∨ text.head? ≠ some '>' ∨ '>' ∈ body_of text)) ∧
    (∀ status message, read_reference text = .exit status message → status = 1) ∧
    (¬ (text = [] ∨ text.head? ≠ some '>' ∨ '>' ∈ body_of text) →
      ∃ reference reference_size, read_reference text = .ok reference reference_size) := by
  rw [read_reference_eq text hline]
  by_cases h1 : text = []
  · rw [if_pos h1]
    refine ⟨⟨fun _ => Or.inl h1, fun _ => ⟨_, _, rfl⟩⟩, ?_, fun h => absurd (Or.inl h1) h⟩
    intro s m h; injection h with hs _; exact hs.symm
  · rw [if_neg h1]
    by_cases h2 : text.head? ≠ some '>'
    · rw [if_pos h2]
      refine ⟨⟨fun _ => Or.inr (Or.inl h2), fun _ => ⟨_, _, rfl⟩⟩, ?_,
        fun h => absurd (Or.inr (Or.inl h2)) h⟩
      intro s m h; injection h with hs _; exact hs.symm
    · rw [if_neg h2]
      by_cases h3 : '>' ∈ body_of text
      · rw [if_pos h3]
        refine ⟨⟨fun _ => Or.inr (Or.inr h3), fun _ => ⟨_, _, rfl⟩⟩, ?_,
          fun h => absurd (Or.inr (Or.inr h3)) h⟩
        intro s m h; injection h with hs _; exact hs.symm
      · rw [if_neg h3]
        unfold read_reference_finish
        refine ⟨⟨?_, ?_⟩, ?_, fun _ => ⟨_, _, rfl⟩⟩
        · rintro ⟨s, m, h⟩; exact absurd h (by simp)
        · rintro (h | h | h)
          · exact absurd h h1
          · exact absurd h h2
          · exact absurd h h3
        · intro s m h; exact absurd h (by simp)

/-- Witness of C8: a text with a second header marker in its body. -/
theorem read_reference_aborts_iff_witness :
    (header_line ">a\nAC\n>b\nGT\n".toList).length ≤ 1023 ∧
    ((∃ status message, read_reference ">a\nAC\n>b\nGT\n".toList = .exit status message) ↔
      (">a\nAC\n>b\nGT\n".toList = [] ∨ ">a\nAC\n>b\nGT\n".toList.head? ≠ some '>'
        ∨ '>' ∈ body_of ">a\nAC\n>b\nGT\n".toList)) :=
  ⟨by decide, (read_reference_aborts_iff ">a\nAC\n>b\nGT\n".toList (by decide)).1⟩

/-- C3: for a reference of `L` symbols (none of them a line break, `L` in the
range of `int`) and a strictly ascending table of positions in `[0, L)`, some
list of draws lets `write_output_files` return, and whenever it returns: the
rows after the header of the SNP list file carry, in order, the positions of
the table, each with the reference symbol at that position and a replacement
among A, C, G, T that differs from it; the output text without its line breaks
has `L` symbols, the replacement at each table position and the reference
symbol at every other position. -/
theorem write_output_files_applies (output_id : Option (List Char)) (reference : List Char)
    (snp_position : List Nat) (column_width : Int)
    (hlen : reference.length < 2147483648) (hsym : ∀ ch ∈ reference, ch ≠ '\n')
    (hasc : snp_position.Sorted (· < ·)) (hrange : ∀ q ∈ snp_position, q < reference.length) :
    (∃ draws w,
      write_output_files output_id reference snp_position column_width draws = some w) ∧
    ∀ draws w,
      write_output_files output_id reference snp_position column_width draws = some w →
      w.csv_header = "Position,Reference,SNP" ∧
      w.csv_rows.map (fun row => row.position)
        = snp_position.map (fun (q : Nat) => (q : Int)) ∧
      (∀ k row, w.csv_rows[k]? = some row →
        reference[snp_position.getD k 0]? = some row.reference ∧
        row.snp ≠ row.reference ∧ row.snp ∈ ['A', 'C', 'G', 'T']) ∧
      (symbols_of w.out_body).length = reference.length ∧
      (∀ k row, w.csv_rows[k]? = some row →
        (symbols_of w.out_body)[snp_position.getD k 0]? = some row.snp) ∧
      (∀ p, p < reference.length → p ∉ snp_position →
        (symbols_of w.out_body)[p]? = reference[p]?) := by
  constructor
  · obtain ⟨draws, ⟨o, cs, rs⟩, hr⟩ :=
      write_output_loop_returns snp_position column_width reference 0 0 0
    refine ⟨draws, ⟨output_id, o, "Position,Reference,SNP", cs, rs⟩, ?_⟩
    simp only [write_output_files, hr]
  · intro draws w hw
    unfold write_output_files at hw
    cases hloop : write_output_loop snp_position column_width reference 0 0 0 draws with
    | none => rw [hloop] at hw; exact absurd hw (by simp)
    | some r =>
      obtain ⟨out, csv, rest⟩ := r
      rw [hloop] at hw
      simp only [Option.some.injEq] at hw
      subst hw
      have hr0 : ∀ k, 0 ≤ k → k < snp_position.length →
          0 ≤ snp_position.getD k 0 ∧ snp_position.getD k 0 < 0 + reference.length := by
        intro k _ hk
        have := hrange _ (mem_iff_getD.mpr ⟨k, hk, rfl⟩)
        omega
      obtain ⟨h1, h2, h3⟩ := write_output_loop_spec snp_position column_width hasc
        reference 0 0 0 draws out csv rest (by omega) hr0 hloop
      obtain ⟨g1, g2, g3⟩ := h3 hsym
      simp only [Nat.zero_add, Nat.sub_zero, List.drop_zero] at h1 h2 g2 g3
      refine ⟨rfl, h1, h2, g1, g2, ?_⟩
      intro p hp hnot
      apply g3 p hp
      intro k _ hk heq
      exact hnot (mem_iff_getD.mpr ⟨k, hk, heq⟩)

/-- Witness of C3: the reference ACGTACGTAC with SNPs at positions 3 and 6. -/
theorem write_output_files_applies_witness :
    ("ACGTACGTAC".toList.length < 2147483648 ∧ (∀ ch ∈ "ACGTACGTAC".toList, ch ≠ '\n') ∧
      [3, 6].Sorted (· < ·) ∧ (∀ q ∈ [3, 6], q < "ACGTACGTAC".toList.length)) ∧
    write_output_files none "ACGTACGTAC".toList [3, 6] 4 [0, 3, 2]
      = some ⟨none, "ACGA\nACTT\nAC".toList, "Position,Reference,SNP",
          [⟨3, 'T', 'A'⟩, ⟨6, 'G', 'T'⟩], [2]⟩ ∧
    (symbols_of "ACGA\nACTT\nAC".toList).length = "ACGTACGTAC".toList.length :=
  ⟨⟨by decide, by decide, by decide, by decide⟩, by decide,
    ((write_output_files_applies none "ACGTACGTAC".toList [3, 6] 4
      (by decide) (by decide) (by decide) (by decide)).2 [0, 3, 2]
        ⟨none, "ACGA\nACTT\nAC".toList, "Position,Reference,SNP",
          [⟨3, 'T', 'A'⟩, ⟨6, 'G', 'T'⟩], [2]⟩ (by decide)).2.2.2.1⟩

/-- C4 fails with minimum distance 0: on a reference of one symbol with
`N = 2`, `make_snps` returns the table `[0, 0]` and `write_output_files` then
writes one row, not two. -/
theorem ledger_rows_short_at_distance_zero :
    make_snps 1 2 0 [0, 0, 1] [] = .returned [0, 0] [1] ∧
    (write_output_files none ['A'] [0, 0] 70 [1]).map (fun w => w.csv_rows)
      = some [⟨0, 'A', 'C'⟩] := by
  refine ⟨by decide, by decide⟩

/-- C4 amended: for every reference of length `L ≥ 1`, every count `N` in
`[1, 10000]`, every minimum distance `D ≥ 1` and all draws on which `make_snps`
and then `write_output_files` return, exactly `N` rows are written after the
header and their positions, in file order, are strictly ascending. -/
theorem ledger_rows_count (output_id : Option (List Char)) (reference : List Char)
    (N D column_width : Int) (draws : List Nat) (t rest : List Nat) (w : Written)
    (hL0 : 1 ≤ reference.length) (hL : reference.length < 2147483648)
    (hN0 : 1 ≤ N) (hN1 : N ≤ 10000) (hD0 : 1 ≤ D) (hD1 : D < 2147483648)
    (hmake : make_snps (reference.length : Int) N D draws [] = .returned t rest)
    (hwrite : write_output_files output_id reference t column_width rest = some w) :
    (w.csv_rows.length : Int) = N ∧
    (w.csv_rows.map (fun row => row.position)).Sorted (· < ·) := by
  have hinv0 := table_inv_nil (reference.length : Int) D
  have hinv := make_snps_loop_inv (L := (reference.length : Int)) (by omega) (by omega)
    (by omega) hD1 draws N.toNat [] hinv0
  have hcount := make_snps_loop_returned (L := (reference.length : Int)) (by omega) (by omega)
    (by omega) hD1 draws N.toNat [] t rest hinv0 hmake
  unfold make_snps at hmake
  rw [hmake] at hinv
  simp only [Run.table] at hinv
  have hasc := table_inv_strict hD0 hinv
  unfold write_output_files at hwrite
  cases hloop : write_output_loop t column_width reference 0 0 0 rest with
  | none => rw [hloop] at hwrite; exact absurd hwrite (by simp)
  | some r =>
    obtain ⟨out, csv, rest1⟩ := r
    rw [hloop] at hwrite
    simp only [Option.some.injEq] at hwrite
    subst hwrite
    have hr0 : ∀ k, 0 ≤ k → k < t.length →
        0 ≤ t.getD k 0 ∧ t.getD k 0 < 0 + reference.length := by
      intro k _ hk
      have := hinv.2.1 _ (mem_iff_getD.mpr ⟨k, hk, rfl⟩)
      omega
    obtain ⟨h1, _, _⟩ := write_output_loop_spec t column_width hasc
      reference 0 0 0 rest out csv rest1 (by omega) hr0 hloop
    simp only [List.drop_zero] at h1
    constructor
    · have hl := congrArg List.length h1
      rw [List.length_map, List.length_map] at hl
      simp only [List.length_nil, Nat.zero_add] at hcount
      show ((csv.length : Nat) : Int) = N
      omega
    · show (csv.map (fun row => row.position)).Sorted (· < ·)
      rw [h1]
      unfold List.Sorted
      rw [List.pairwise_map]
      refine (hasc : t.Pairwise (· < ·)).imp ?_
      intro a b hab
      omega

/-- Witness of C4 amended: the reference ACGTACGTAC, `N = 2`, `D = 3`. -/
theorem ledger_rows_count_witness :
    make_snps ("ACGTACGTAC".toList.length : Int) 2 3 [3, 4, 5, 6, 0, 3, 2] []
      = .returned [3, 6] [0, 3, 2] ∧
    write_output_files none "ACGTACGTAC".toList [3, 6] 4 [0, 3, 2]
      = some ⟨none, "ACGA\nACTT\nAC".toList, "Position,Reference,SNP",
          [⟨3, 'T', 'A'⟩, ⟨6, 'G', 'T'⟩], [2]⟩ ∧
    (([⟨3, 'T', 'A'⟩, ⟨6, 'G', 'T'⟩] : List CsvRow).length : Int) = 2 :=
  ⟨by decide, by decide,
    (ledger_rows_count none "ACGTACGTAC".toList 2 3 4 [3, 4, 5, 6, 0, 3, 2] [3, 6] [0, 3, 2]
      ⟨none, "ACGA\nACTT\nAC".toList, "Position,Reference,SNP",
        [⟨3, 'T', 'A'⟩, ⟨6, 'G', 'T'⟩], [2]⟩
      (by decide) (by decide) (by decide) (by decide) (by decide) (by decide)
      (by decide) (by decide)).1⟩

/-- C5 fails with minimum distance 0: with `L = 5` and `N = 3` the draws 7, 2,
12 all give position 2, each is accepted, and the table holds 2 three times. -/
theorem positions_repeat_at_distance_zero :
    make_snps 5 3 0 [7, 2, 12] [] = .returned [2, 2, 2] [] ∧ ¬ [2, 2, 2].Nodup ∧
    ¬ [2, 2, 2].Sorted (· < ·) := by
  refine ⟨by decide, by decide, by decide⟩

/-- C5 amended: for every reference length `L ≥ 1`, every requested count `N`,
every minimum distance `D ≥ 1` and all draws on which `make_snps` returns, the
table holds `N` positions (none when `N` is negative), all distinct, in
strictly ascending order. -/
theorem positions_distinct (L N D : Int) (draws : List Nat) (t rest : List Nat)
    (hL0 : 1 ≤ L) (hL : L < 2147483648) (hD0 : 1 ≤ D) (hD1 : D < 2147483648)
    (hmake : make_snps L N D draws [] = .returned t rest) :
    t.length = N.toNat ∧ t.Sorted (· < ·) ∧ t.Nodup := by
  have hinv0 := table_inv_nil L D
  have hinv := make_snps_loop_inv hL0 hL (by omega) hD1 draws N.toNat [] hinv0
  have hcount := make_snps_loop_returned hL0 hL (by omega) hD1 draws N.toNat [] t rest
    hinv0 hmake
  unfold make_snps at hmake
  rw [hmake] at hinv
  simp only [Run.table] at hinv
  have hasc := table_inv_strict hD0 hinv
  refine ⟨by simpa using hcount, hasc, hasc.nodup⟩

/-- Witness of C5 amended: `L = 10`, `N = 2`, `D = 3`. -/
theorem positions_distinct_witness :
    ((1 : Int) ≤ 10 ∧ (10 : Int) < 2147483648 ∧ (1 : Int) ≤ 3 ∧ (3 : Int) < 2147483648) ∧
    make_snps 10 2 3 [13, 4, 5, 0, 7] [] = .returned [0, 3] [7] ∧
    ([0, 3].length = (2 : Int).toNat ∧ [0, 3].Sorted (· < ·) ∧ [0, 3].Nodup) :=
  ⟨by decide, by decide,
    positions_distinct 10 2 3 [13, 4, 5, 0, 7] [0, 3] [7]
      (by decide) (by decide) (by decide) (by decide) (by decide)⟩

/-- C11: on `makesnps -i a -o b -c c`, an accepted argument vector without
`-s`, `output_id` is still null after parsing (the code assigns
`default_id = output_id` instead of `output_id = default_id`), so the header
line is printed from a null pointer and not from "makesnps"; with `-s x` the
identifier is `x`. -/
theorem default_id_not_used :
    parse_command_line_args ["makesnps".toList, "-i".toList, "a".toList, "-o".toList,
        "b".toList, "-c".toList, "c".toList]
      = .returned
          { input_filename := some ['a'], output_filename := some ['b'],
            snp_list_filename := some ['c'], output_id := none, default_id := none } [] ∧
    (write_output_files none ['A'] [] 70 []).map (fun w => w.out_id) = some none ∧
    parse_command_line_args ["makesnps".toList, "-i".toList, "a".toList, "-o".toList,
        "b".toList, "-c".toList, "c".toList, "-s".toList, "x".toList]
      = .returned
          { input_filename := some ['a'], output_filename := some ['b'],
            snp_list_filename := some ['c'], output_id := some ['x'] } [] := by
  refine ⟨by decide, by decide, by decide⟩

/-- C15: with reference length 15 the accepted position 14 gets the bin index
`14 / (15 / 10) = 14`, outside `bins[10]`; with reference length 5 the bin
width `5 / 10` is 0 and the bin index is a division by zero.  Both tables are
what `make_snps` returns on one draw. -/
theorem bin_index_out_of_range :
    make_snps 15 1 100 [14] [] = .returned [14] [] ∧
    display_snp_stats 15 [14] 100 = .out_of_range 14 ∧
    make_snps 5 1 100 [3] [] = .returned [3] [] ∧
    display_snp_stats 5 [3] 100 = .div_by_zero ∧
    display_snp_stats 20 [0, 19] 5 = .shown [1, 0, 0, 0, 0, 0, 0, 0, 0, 1] [] := by
  refine ⟨by decide, by decide, by decide, by decide, by decide⟩

/-- C17: with the requested count 0, for every reference (of symbols other than
line breaks) `make_snps` returns the empty table with every draw unread, and
`write_output_files` then writes the reference symbols unchanged and no row
after the header row "Position,Reference,SNP". -/
theorem zero_count_copies_reference (output_id : Option (List Char)) (reference : List Char)
    (D column_width : Int) (draws : List Nat) (hsym : ∀ ch ∈ reference, ch ≠ '\n') :
    make_snps (reference.length : Int) 0 D draws [] = .returned [] draws ∧
    ∃ out_body,
      write_output_files output_id reference [] column_width draws
        = some ⟨output_id, out_body, "Position,Reference,SNP", [], draws⟩ ∧
      symbols_of out_body = reference := by
  constructor
  · cases draws <;> rfl
  · obtain ⟨out, hout, hs⟩ := write_output_loop_no_snps column_width reference 0 0 0 draws hsym
    refine ⟨out, ?_, hs⟩
    simp only [write_output_files, hout]

/-- Witness of C17: the reference ACGTAC written in lines of 4 symbols. -/
theorem zero_count_copies_reference_witness :
    (∀ ch ∈ "ACGTAC".toList, ch ≠ '\n') ∧
    make_snps ("ACGTAC".toList.length : Int) 0 100 [5, 7] [] = .returned [] [5, 7] ∧
    write_output_files none "ACGTAC".toList [] 4 [5, 7]
      = some ⟨none, "ACGT\nAC".toList, "Position,Reference,SNP", [], [5, 7]⟩ :=
  ⟨by decide,
    (zero_count_copies_reference none "ACGTAC".toList 100 4 [5, 7] (by decide)).1,
    by decide⟩

/-- C18: with a header line of 1027 characters, `>`, 1022 times `x`, then
`ACGT` and the newline, the four letters `ACGT` of the header line are stored
in the reference in front of the body `GG`; and when the header line has a `>`
after its first 1023 characters the run exits as for a second sequence,
although the body has none. -/
theorem long_header_read_as_body :
    body_of ('>' :: List.replicate 1022 'x' ++ "ACGT\nGG\n".toList) = "GG\n".toList ∧
    read_reference ('>' :: List.replicate 1022 'x' ++ "ACGT\nGG\n".toList)
      = .ok ['A', 'C', 'G', 'T', 'G', 'G'] 6 ∧
    '>' ∉ body_of ('>' :: List.replicate 1022 'x' ++ ">\nGG\n".toList) ∧
    read_reference ('>' :: List.replicate 1022 'x' ++ ">\nGG\n".toList)
      = .exit 1 "Error: File should only have 1 sequence in it." := by
  have hx : ∀ c ∈ List.replicate 1022 'x', c ≠ '\n' := by
    intro c hc
    rw [(List.mem_replicate.mp hc).2]
    decide
  have hpre : ∀ c ∈ '>' :: List.replicate 1022 'x', c ≠ '\n' := by
    intro c hc
    rcases List.mem_cons.mp hc with h1 | h1
    · rw [h1]; decide
    · exact hx c h1
  have hb1 := body_of_append ('>' :: List.replicate 1022 'x') "ACGT\nGG\n".toList hpre
  have hb2 := body_of_append ('>' :: List.replicate 1022 'x') ">\nGG\n".toList hpre
  refine ⟨?_, ?_, ?_, ?_⟩
  · rw [hb1]; decide
  · rw [read_reference_long_header _ _ (List.length_replicate 1022 'x') hx]; decide
  · rw [hb2]; decide
  · rw [read_reference_long_header _ _ (List.length_replicate 1022 'x') hx]; decide

/-- C19: for every table sorted ascending with entries below 2^31, every
candidate `0 ≤ p < 2^31` and every minimum distance `0 ≤ D < 2^31` (the
non-negative `int` values), `position_ok` returns 1 if and only if
`|p − q| ≥ D` for every stored position `q`, and 0 otherwise.  No conversion or
subtraction it performs wraps: `D` and `p` keep their values as
`unsigned int`, the comparison of the loop is the comparison of the integers,
and with `i` the index found by the loop the differences taken
(`p − snp_position[i−1]` when `i > 0`, `snp_position[i] − p` when
`i < n_snps`) are the differences of the integers. -/
theorem position_ok_iff_all_spaced (t : List Nat) (D p : Int)
    (hs : t.Sorted (· ≤ ·)) (hb : ∀ q ∈ t, q < 2147483648)
    (hp0 : 0 ≤ p) (hp1 : p < 2147483648) (hD0 : 0 ≤ D) (hD1 : D < 2147483648) :
    (position_ok t D p = 1 ↔ ∀ q ∈ t, D ≤ |p - (q : Int)|) ∧
    (position_ok t D p = 0 ∨ position_ok t D p = 1) ∧
    ((to_unsigned D : Int) = D ∧ (to_unsigned p : Int) = p) ∧
    (∀ q ∈ t, q > to_unsigned p ↔ (q : Int) > p) ∧
    (0 < position_ok_scan p t 0 →
      (usub (to_unsigned p) (t.getD (position_ok_scan p t 0 - 1) 0) : Int)
        = p - (t.getD (position_ok_scan p t 0 - 1) 0 : Int)) ∧
    (position_ok_scan p t 0 < t.length →
      (usub (t.getD (position_ok_scan p t 0) 0) (to_unsigned p) : Int)
        = (t.getD (position_ok_scan p t 0) 0 : Int) - p) := by
  have hu : (to_unsigned p : Int) = p := to_unsigned_of_range hp0 (by omega)
  have hDu : (to_unsigned D : Int) = D := to_unsigned_of_range hD0 (by omega)
  refine ⟨?_, position_ok_zero_or_one t D p, ⟨hDu, hu⟩, ?_, ?_, ?_⟩
  · rw [position_ok_eq_one_iff hs hb D hp0 hp1, hDu]
    constructor
    · rintro (h | h)
      · subst h; simp
      · exact h
    · intro h; exact Or.inr h
  · intro q _
    omega
  · intro hpos
    have h1 := position_ok_scan_before p t (position_ok_scan p t 0 - 1) (by omega)
    rw [usub_of_le h1 (by omega)]
    omega
  · intro hlt
    have h1 := position_ok_scan_at p t hlt
    have h2 := hb _ (mem_iff_getD.mpr ⟨_, hlt, rfl⟩)
    rw [usub_of_le (by omega) (by omega)]
    omega

/-- Witness of C19: the table 5, 30 with minimum distance 10 and candidate 20. -/
theorem position_ok_iff_all_spaced_witness :
    ([5, 30].Sorted (· ≤ ·) ∧ (∀ q ∈ [5, 30], q < 2147483648)) ∧
    position_ok [5, 30] 10 20 = 1 ∧
    (position_ok [5, 30] 10 20 = 1 ↔ ∀ q ∈ ([5, 30] : List Nat), (10 : Int) ≤ |20 - (q : Int)|) :=
  ⟨⟨by decide, by decide⟩, by decide,
    (position_ok_iff_all_spaced [5, 30] 10 20 (by decide) (by decide) (by decide)
      (by decide) (by decide) (by decide)).1⟩

/-- C13 fails: with `L = 1000`, `D = 100` and `N = 9` the accepted draws 99,
298, 497, 696, 895, 995 lead to a state with 6 positions, 3 still to insert, in
which `position_ok` rejects every candidate of `[0, 1000)`. -/
theorem stuck_with_six_positions :
    make_snps 1000 9 100 [99, 298, 497, 696, 895, 995] []
      = .waiting [99, 298, 497, 696, 895, 995] 3 ∧
    ∀ p : Int, 0 ≤ p → p < 1000 → position_ok [99, 298, 497, 696, 895, 995] 100 p = 0 := by
  refine ⟨by decide, ?_⟩
  intro p hp0 hp1
  rcases position_ok_zero_or_one [99, 298, 497, 696, 895, 995] 100 p with h | h
  · exact h
  · exfalso
    have hD : (to_unsigned 100 : Int) = 100 := to_unsigned_of_range (by omega) (by omega)
    rw [position_ok_eq_one_iff (by decide) (by decide) 100 hp0 (by omega), hD] at h
    rcases h with h | h
    · exact absurd h (by decide)
    · have h1 := h 99 (by decide)
      have h2 := h 298 (by decide)
      have h3 := h 497 (by decide)
      have h4 := h 696 (by decide)
      have h5 := h 895 (by decide)
      have h6 := h 995 (by decide)
      rw [le_abs] at h1 h2 h3 h4 h5 h6
      omega

/-- C13 amended: with `L = 1000` and `D = 100`, in every state that `make_snps`
reaches from the empty table and that holds fewer than 6 positions, at least
one candidate of `[0, 1000)` passes `position_ok`, so the rejection loop can
always make progress until 6 positions are accepted; and some draws make
`make_snps` return with `N = 9`. -/
theorem progress_below_six_positions (N : Int) (draws : List Nat)
    (h : (make_snps 1000 N 100 draws []).table.length < 6) :
    (∃ p : Int, 0 ≤ p ∧ p < 1000 ∧
      position_ok (make_snps 1000 N 100 draws []).table 100 p = 1) ∧
    (∃ draws9 t rest, make_snps 1000 9 100 draws9 [] = .returned t rest) := by
  constructor
  · have hinv := make_snps_loop_inv (L := 1000) (D := 100) (by omega) (by omega) (by omega)
      (by omega) draws N.toNat [] (table_inv_nil 1000 100)
    unfold make_snps at h ⊢
    apply position_ok_candidate (by omega) (by omega) (by omega) hinv
    have : ((make_snps_loop 1000 100 N.toNat draws []).table.length : Int) ≤ 5 := by omega
    omega
  · exact ⟨[0, 100, 200, 300, 400, 500, 600, 700, 800],
      [0, 100, 200, 300, 400, 500, 600, 700, 800], [], by decide⟩

/-- Witness of C13 amended: the state after the accepted draws 99 and 298. -/
theorem progress_below_six_positions_witness :
    (make_snps 1000 9 100 [99, 298] []).table.length < 6 ∧
    ∃ p : Int, 0 ≤ p ∧ p < 1000 ∧
      position_ok (make_snps 1000 9 100 [99, 298] []).table 100 p = 1 :=
  ⟨by decide, (progress_below_six_positions 9 [99, 298] (by decide)).1⟩

/-- C14: with `L = 1000`, `D = 200` and `N = 10`, `make_snps` returns on no
list of draws, since no state it reaches holds more than 5 positions; and for
every `L ≥ 1` and `D ≥ 1` every state reached from the empty table satisfies
`(n_snps − 1) * D ≤ L − 1`. -/
theorem make_snps_never_overfills :
    (∀ (draws t rest : List Nat), make_snps 1000 10 200 draws [] ≠ .returned t rest) ∧
    (∀ draws : List Nat, (make_snps 1000 10 200 draws []).table.length ≤ 5) ∧
    (∀ (L N D : Int) (draws : List Nat), 1 ≤ L → L < 2147483648 → 1 ≤ D → D < 2147483648 →
      (((make_snps L N D draws []).table.length : Int) - 1) * D ≤ L - 1) := by
  have hgen : ∀ (L N D : Int) (draws : List Nat), 1 ≤ L → L < 2147483648 → 1 ≤ D →
      D < 2147483648 →
      (((make_snps L N D draws []).table.length : Int) - 1) * D ≤ L - 1 := by
    intro L N D draws hL0 hL hD0 hD1
    have hinv := make_snps_loop_inv hL0 hL (by omega) hD1 draws N.toNat [] (table_inv_nil L D)
    unfold make_snps
    by_cases hnil : (make_snps_loop L D N.toNat draws []).table = []
    · rw [hnil]
      simp only [List.length_nil, Nat.cast_zero, zero_sub]
      omega
    · have hr : ∀ q ∈ (make_snps_loop L D N.toNat draws []).table,
          (0 : Int) ≤ (q : Int) ∧ (q : Int) ≤ L - 1 := by
        intro q hq
        have := hinv.2.1 q hq
        omega
      have := spaced_span D _ 0 (L - 1) (table_inv_gaps hinv) hr hnil
      omega
  have hfive : ∀ draws : List Nat, (make_snps 1000 10 200 draws []).table.length ≤ 5 := by
    intro draws
    have := hgen 1000 10 200 draws (by omega) (by omega) (by omega) (by omega)
    omega
  refine ⟨?_, hfive, hgen⟩
  intro draws t rest hret
  have hcount := make_snps_loop_returned (L := 1000) (D := 200) (by omega) (by omega)
    (by omega) (by omega) draws (10 : Int).toNat [] t rest (table_inv_nil 1000 200) hret
  have h5 := hfive draws
  rw [hret] at h5
  simp only [Run.table] at h5
  have h10 : (10 : Int).toNat = 10 := rfl
  rw [h10] at hcount
  simp only [List.length_nil] at hcount
  omega

/-- Witness of C14: the state after the draws 0, 200, 400, 600, 800 and 100. -/
theorem make_snps_never_overfills_witness :
    ((1 : Int) ≤ 1000 ∧ (1000 : Int) < 2147483648 ∧ (1 : Int) ≤ 200
      ∧ (200 : Int) < 2147483648) ∧
    make_snps 1000 10 200 [0, 200, 400, 600, 800, 100] []
      = .waiting [0, 200, 400, 600, 800] 5 ∧
    (((make_snps 1000 10 200 [0, 200, 400, 600, 800, 100] []).table.length : Int) - 1) * 200
      ≤ 1000 - 1 :=
  ⟨by decide, by decide,
    make_snps_never_overfills.2.2 1000 10 200 [0, 200, 400, 600, 800, 100]
      (by decide) (by decide) (by decide) (by decide)⟩

/-- C20: for every `L ≥ 1` and `D ≥ 1` (in the range of `int`), every table
that satisfies the sorted and spacing invariant and holds `k` positions with
`k * (2 * D − 1) < L` leaves a candidate of `[0, L)` that passes
`position_ok`; hence when `(N − 1) * (2 * D − 1) < L`, in every state in which
`make_snps` still waits for a draw some draw is accepted, and some list of
draws makes `make_snps` return. -/
theorem rejection_loop_not_stuck (L D : Int) (hL0 : 1 ≤ L) (hL : L < 2147483648)
    (hD0 : 1 ≤ D) (hD1 : D < 2147483648) :
    (∀ t : List Nat, table_inv L D t → (t.length : Int) * (2 * D - 1) < L →
      ∃ p : Int, 0 ≤ p ∧ p < L ∧ position_ok t D p = 1) ∧
    (∀ (N : Int) (draws t : List Nat) (todo : Nat), (N - 1) * (2 * D - 1) < L →
      make_snps L N D draws [] = .waiting t todo →
      ∃ r : Nat, (r : Int) < L ∧ position_ok t D (Int.tmod (r : Int) L) = 1) ∧
    (∀ N : Int, (N - 1) * (2 * D - 1) < L →
      ∃ draws t rest, make_snps L N D draws [] = .returned t rest) := by
  refine ⟨?_, ?_, ?_⟩
  · intro t hinv hk
    exact position_ok_candidate hL hD0 hD1 hinv hk
  · intro N draws t todo hroom hwait
    have hinv := make_snps_loop_inv hL0 hL (by omega) hD1 draws N.toNat [] (table_inv_nil L D)
    have hcount := make_snps_loop_waiting hL0 hL (by omega) hD1 draws N.toNat [] t todo
      (table_inv_nil L D) hwait
    unfold make_snps at hwait
    rw [hwait] at hinv
    simp only [Run.table] at hinv
    simp only [List.length_nil, Nat.zero_add] at hcount
    have hN : ((N.toNat : Nat) : Int) = N := Int.toNat_of_nonneg (by omega)
    have hk : (t.length : Int) * (2 * D - 1) < L := by
      have h1 : (t.length : Int) * (2 * D - 1) ≤ (N - 1) * (2 * D - 1) := by
        apply mul_le_mul_of_nonneg_right
        · omega
        · omega
      omega
    obtain ⟨p, hp0, hp1, hok⟩ := position_ok_candidate hL hD0 hD1 hinv hk
    refine ⟨p.toNat, ?_, ?_⟩
    · rw [Int.toNat_of_nonneg hp0]; exact hp1
    · rw [Int.toNat_of_nonneg hp0, Int.tmod_eq_of_lt hp0 hp1]; exact hok
  · intro N hroom
    unfold make_snps
    apply make_snps_loop_can_return hL0 hL hD0 hD1 N.toNat [] (table_inv_nil L D)
    by_cases hN : N ≤ 0
    · left; omega
    · right
      have hNn : ((N.toNat : Nat) : Int) = N := Int.toNat_of_nonneg (by omega)
      simp only [List.length_nil, Nat.cast_zero, zero_add]
      rw [hNn]
      exact hroom

/-- Witness of C20: `L = 1000`, `D = 100` and the table 99, 298. -/
theorem rejection_loop_not_stuck_witness :
    ((1 : Int) ≤ 1000 ∧ (1000 : Int) < 2147483648 ∧ (1 : Int) ≤ 100
      ∧ (100 : Int) < 2147483648) ∧
    (([99, 298] : List Nat).length : Int) * (2 * 100 - 1) < 1000 ∧
    position_ok [99, 298] 100 500 = 1 ∧
    ∃ p : Int, 0 ≤ p ∧ p < 1000 ∧ position_ok [99, 298] 100 p = 1 :=
  ⟨by decide, by decide, by decide,
    (rejection_loop_not_stuck 1000 100 (by decide) (by decide) (by decide) (by decide)).1
      [99, 298]
      ⟨by decide, by decide, by
        refine List.Pairwise.cons ?_ (List.pairwise_singleton _ _)
        intro b hb
        rw [List.mem_singleton.mp hb]
        decide⟩
      (by decide)⟩

/-- C16: for every column width `W ≥ 1` (an `int`) and every reference of `L`
symbols (none of them a line break, `L` in the range of `int`), some list of
draws lets `write_output_files` return, and whenever it returns the text after
the header line is the `L` sequence symbols in order with a line break after
every `W`-th symbol and nowhere else.  The sequence symbols: the text without
its line breaks has `L` symbols, which differ from the reference symbols
exactly by the substitutions of the SNP list file (equal to the reference
symbol at every position that no row names, equal to the row's SNP at the
position a row names; for a strictly ascending table within the reference the
rows name the table's positions).  The line breaks: the text has `L + L / W`
characters, the character at index `j` is a line break exactly when `j + 1`
is a multiple of `W + 1` (each line holds `W` symbols, the last one possibly
fewer), and the text is its symbols laid out in lines of `W`.  The header
line carries the identifier as given. -/
theorem output_wrapped (output_id : Option (List Char)) (reference : List Char)
    (snp_position : List Nat) (W : Nat)
    (hW0 : 1 ≤ W) (hW1 : W < 2147483648) (hlen : reference.length < 2147483648)
    (hsym : ∀ ch ∈ reference, ch ≠ '\n') :
    (∃ draws w,
      write_output_files output_id reference snp_position (W : Int) draws = some w) ∧
    ∀ draws w,
      write_output_files output_id reference snp_position (W : Int) draws = some w →
      w.out_id = output_id ∧
      (symbols_of w.out_body).length = reference.length ∧
      differences 0 reference (symbols_of w.out_body) = w.csv_rows ∧
      (∀ p, p < reference.length → (∀ row ∈ w.csv_rows, row.position ≠ (p : Int)) →
        (symbols_of w.out_body)[p]? = reference[p]?) ∧
      (∀ row ∈ w.csv_rows, ∃ p : Nat, row.position = (p : Int) ∧
        reference[p]? = some row.reference ∧ (symbols_of w.out_body)[p]? = some row.snp ∧
        row.reference ≠ row.snp) ∧
      (snp_position.Sorted (· < ·) → (∀ q ∈ snp_position, q < reference.length) →
        w.csv_rows.map (fun row => row.position)
          = snp_position.map (fun (q : Nat) => (q : Int))) ∧
      w.out_body.length = reference.length + reference.length / W ∧
      (∀ j, j < w.out_body.length →
        (w.out_body[j]? = some '\n' ↔ (j + 1) % (W + 1) = 0)) ∧
      w.out_body = wrap_col W 0 (symbols_of w.out_body) := by
  constructor
  · obtain ⟨draws, ⟨o, cs, rs⟩, hr⟩ :=
      write_output_loop_returns snp_position (W : Int) reference 0 0 0
    refine ⟨draws, ⟨output_id, o, "Position,Reference,SNP", cs, rs⟩, ?_⟩
    simp only [write_output_files, hr]
  · intro draws w hw
    unfold write_output_files at hw
    cases hloop : write_output_loop snp_position (W : Int) reference 0 0 0 draws with
    | none => rw [hloop] at hw; exact absurd hw (by simp)
    | some r =>
      obtain ⟨out, csv, rest⟩ := r
      rw [hloop] at hw
      simp only [Option.some.injEq] at hw
      subst hw
      obtain ⟨syms, h1, h2, h3⟩ := write_output_loop_shape snp_position W hW1 reference 0 0 0
        draws out csv rest hsym (by omega) (by exact_mod_cast hloop)
      have hs := symbols_of_wrap_col W syms 0 h2
      have hl := wrap_col_length W hW0 syms 0 (by omega)
      have hb := wrap_col_breaks W hW0 syms 0 (by omega) h2
      have hd := write_output_loop_differences snp_position (W : Int) reference 0 0 0
        draws out csv rest (by omega) hsym hloop
      simp only [Nat.zero_add] at hl hb
      subst h3
      rw [hs] at hd
      refine ⟨rfl, ?_, ?_, ?_, ?_, ?_, ?_, ?_, ?_⟩
      · show (symbols_of (wrap_col W 0 syms)).length = reference.length
        rw [hs, h1]
      · show differences 0 reference (symbols_of (wrap_col W 0 syms)) = csv
        rw [hs]; exact hd
      · intro p hp hfree
        show (symbols_of (wrap_col W 0 syms))[p]? = reference[p]?
        rw [hs]
        apply differences_same reference syms 0 p hp (by omega)
        intro row hrow
        rw [hd] at hrow
        simpa using hfree row hrow
      · intro row hrow
        show ∃ p : Nat, row.position = (p : Int) ∧ reference[p]? = some row.reference ∧
          (symbols_of (wrap_col W 0 syms))[p]? = some row.snp ∧ row.reference ≠ row.snp
        rw [hs]
        have hrow1 : row ∈ differences 0 reference syms := by rw [hd]; exact hrow
        obtain ⟨i, g1, g2, g3, g4⟩ := differences_mem reference syms 0 row hrow1
        exact ⟨i, by simpa using g1, g2, g3, g4⟩
      · intro hasc hrange
        have hr0 : ∀ k, 0 ≤ k → k < snp_position.length →
            0 ≤ snp_position.getD k 0 ∧ snp_position.getD k 0 < 0 + reference.length := by
          intro k _ hk
          have := hrange _ (mem_iff_getD.mpr ⟨k, hk, rfl⟩)
          omega
        obtain ⟨g1, _, _⟩ := write_output_loop_spec snp_position (W : Int) hasc
          reference 0 0 0 draws (wrap_col W 0 syms) csv rest (by omega) hr0 hloop
        simpa using g1
      · show (wrap_col W 0 syms).length = reference.length + reference.length / W
        rw [hl, h1]
      · exact hb
      · show wrap_col W 0 syms = wrap_col W 0 (symbols_of (wrap_col W 0 syms))
        rw [hs]

/-- Witness of C16: the reference ACGTACGTAC with SNPs at 3 and 6, in lines of 4. -/
theorem output_wrapped_witness :
    (1 ≤ 4 ∧ 4 < 2147483648 ∧ "ACGTACGTAC".toList.length < 2147483648 ∧
      (∀ ch ∈ "ACGTACGTAC".toList, ch ≠ '\n')) ∧
    write_output_files none "ACGTACGTAC".toList [3, 6] ((4 : Nat) : Int) [0, 3, 2]
      = some ⟨none, "ACGA\nACTT\nAC".toList, "Position,Reference,SNP",
          [⟨3, 'T', 'A'⟩, ⟨6, 'G', 'T'⟩], [2]⟩ ∧
    differences 0 "ACGTACGTAC".toList (symbols_of "ACGA\nACTT\nAC".toList)
      = [⟨3, 'T', 'A'⟩, ⟨6, 'G', 'T'⟩] ∧
    "ACGA\nACTT\nAC".toList = wrap_col 4 0 (symbols_of "ACGA\nACTT\nAC".toList) :=
  ⟨⟨by decide, by decide, by decide, by decide⟩, by decide,
    ((output_wrapped none "ACGTACGTAC".toList [3, 6] 4
      (by decide) (by decide) (by decide) (by decide)).2 [0, 3, 2]
        ⟨none, "ACGA\nACTT\nAC".toList, "Position,Reference,SNP",
          [⟨3, 'T', 'A'⟩, ⟨6, 'G', 'T'⟩], [2]⟩ (by decide)).2.2.1,
    by decide⟩

/-- C12 fails: the value `12abc` of `-n` is not a number, yet `atoi` reads its
leading digits and the run continues with the count 12; and in
`-s -n 0 ...` the `-n` stands where `-s` looks for its value, is skipped with
its value 0, and the run continues with the count 1000. -/
theorem count_with_trailing_text_accepted :
    parse_command_line_args ["makesnps".toList, "-i".toList, "a".toList, "-o".toList,
        "b".toList, "-c".toList, "c".toList, "-n".toList, "12abc".toList]
      = .returned
          { input_filename := some ['a'], output_filename := some ['b'],
            snp_list_filename := some ['c'], n_snps_to_insert := 12, default_id := none } [] ∧
    parse_command_line_args ["makesnps".toList, "-s".toList, "-n".toList, "0".toList,
        "-i".toList, "a".toList, "-o".toList, "b".toList, "-c".toList, "c".toList]
      = .returned
          { input_filename := some ['a'], output_filename := some ['b'],
            snp_list_filename := some ['c'], n_snps_to_insert := 1000, default_id := none }
          [] := by
  refine ⟨by decide, by decide⟩

/-- C12 amended: for every argument vector, `parse_command_line_args` returns a
configuration only with an SNP count in `[1, 10000]`.  Every `-n` option that
the parsing loop reaches and whose value, as `parse_int` reads it, is below 1
or above 10000 ends the run with status 1; every one whose value is read as a
number of `[1, 10000]` sets the count to it and the loop goes on.  `parse_int`
reads a missing value as −1, a value that is empty or starts with a character
other than a digit, a sign or white space as 0, and a value that starts with
digits as the number its leading digits spell, whatever text follows them,
when that number is at most 2147483647.  When no argument starts with `-n`
the count is the default 1000. -/
theorem count_in_range (argv : List (List Char)) :
    (∀ g printed, parse_command_line_args argv = .returned g printed →
      1 ≤ g.n_snps_to_insert ∧ g.n_snps_to_insert ≤ 10000) ∧
    (∀ (fuel i : Nat) (g : Globals), i < argv.length →
      (argv.getD i []).head? = some '-' → (argv.getD i []).getD 1 (Char.ofNat 0) = 'n' →
      ((parse_int argv i).1 < 1 ∨ (parse_int argv i).1 > 10000) →
      parse_loop argv (fuel + 1) i g
        = .exit 1 ["Error: number of SNPs must be between 1 and 10000."]) ∧
    (∀ (fuel i : Nat) (g : Globals), i < argv.length →
      (argv.getD i []).head? = some '-' → (argv.getD i []).getD 1 (Char.ofNat 0) = 'n' →
      1 ≤ (parse_int argv i).1 → (parse_int argv i).1 ≤ 10000 →
      parse_loop argv (fuel + 1) i g
        = parse_loop argv fuel ((parse_int argv i).2 + 1)
            { g with n_snps_to_insert := (parse_int argv i).1 }) ∧
    (∀ i, (parse_string argv i).1 = none → (parse_int argv i).1 = -1) ∧
    (∀ i, (parse_string argv i).1 = some [] → (parse_int argv i).1 = 0) ∧
    (∀ i c cs, (parse_string argv i).1 = some (c :: cs) →
      ¬ (48 ≤ c.toNat ∧ c.toNat ≤ 57) → isspace c = false → c ≠ '+' →
      (parse_int argv i).1 = 0) ∧
    (∀ i d ds rest, (parse_string argv i).1 = some (d :: ds ++ rest) →
      (∀ c ∈ d :: ds, 48 ≤ c.toNat ∧ c.toNat ≤ 57) →
      (∀ c cs, rest = c :: cs → ¬ (48 ≤ c.toNat ∧ c.toNat ≤ 57)) →
      decimal_value (d :: ds) ≤ 2147483647 →
      (parse_int argv i).1 = (decimal_value (d :: ds) : Int)) ∧
    ((∀ a ∈ argv, ¬ (a.head? = some '-' ∧ a.getD 1 (Char.ofNat 0) = 'n')) →
      ∀ g printed, parse_command_line_args argv = .returned g printed →
        g.n_snps_to_insert = 1000) := by
  have hM : (MAX_SNPS : Int) = 10000 := rfl
  refine ⟨?_, ?_, ?_, ?_, ?_, ?_, ?_, ?_⟩
  · intro g printed h
    unfold parse_command_line_args at h
    split at h
    · exact absurd h (by simp)
    · refine parse_loop_count argv (fun v => 1 ≤ v ∧ v ≤ 10000) ?_ argv.length 1 {} g printed
        (by decide) h
      intro i _ _ _ hr
      rw [hM] at hr
      omega
  · intro fuel i g hi hhead hopt hbad
    exact parse_loop_count_rejected argv fuel i g hi hhead hopt hbad
  · intro fuel i g hi hhead hopt h1 h2
    apply parse_loop_count_accepted argv fuel i g hi hhead hopt
    rw [hM]
    omega
  · intro i h
    exact parse_int_of_none argv i h
  · intro i h
    rw [parse_int_of_token argv i [] h]
    decide
  · intro i c cs h hd hs hplus
    rw [parse_int_of_token argv i _ h]
    have hminus : c ≠ '-' := by
      intro hc
      have := parse_string_token argv i _ h
      rw [hc] at this
      exact this rfl
    exact atoi_no_number c cs hd hs hminus hplus
  · intro i d ds rest h hd hrest hval
    rw [parse_int_of_token argv i _ h]
    exact atoi_leading_digits d ds rest hd hrest hval
  · intro hno g printed h
    unfold parse_command_line_args at h
    split at h
    · exact absurd h (by simp)
    · refine parse_loop_count argv (fun v => v = 1000) ?_ argv.length 1 {} g printed rfl h
      intro i hi hhead hopt _
      have hmem : argv.getD i [] ∈ argv := by
        rw [List.getD_eq_getElem argv [] hi]
        exact List.getElem_mem hi
      exact absurd ⟨hhead, hopt⟩ (hno _ hmem)

/-- Witness of C12 amended: `-n 12abc` gives a count in range; `-n abc`, a
`-n` without value and `-n 18446744073709551621` end the run. -/
theorem count_in_range_witness :
    parse_command_line_args ["makesnps".toList, "-i".toList, "a".toList, "-o".toList,
        "b".toList, "-c".toList, "c".toList, "-n".toList, "12abc".toList]
      = .returned
          { input_filename := some ['a'], output_filename := some ['b'],
            snp_list_filename := some ['c'], n_snps_to_insert := 12, default_id := none } [] ∧
    ((1 : Int) ≤ 12 ∧ (12 : Int) ≤ 10000) ∧
    parse_command_line_args ["makesnps".toList, "-i".toList, "a".toList, "-o".toList,
        "b".toList, "-n".toList, "abc".toList]
      = .exit 1 ["Error: number of SNPs must be between 1 and 10000."] ∧
    parse_command_line_args ["makesnps".toList, "-i".toList, "a".toList, "-o".toList,
        "b".toList, "-n".toList]
      = .exit 1 ["Error: number of SNPs must be between 1 and 10000."] ∧
    parse_command_line_args ["makesnps".toList, "-i".toList, "a".toList, "-o".toList,
        "b".toList, "-n".toList, "18446744073709551621".toList]
      = .exit 1 ["Error: number of SNPs must be between 1 and 10000."] :=
  ⟨by decide,
    (count_in_range ["makesnps".toList, "-i".toList, "a".toList, "-o".toList,
        "b".toList, "-c".toList, "c".toList, "-n".toList, "12abc".toList]).1
      { input_filename := some ['a'], output_filename := some ['b'],
        snp_list_filename := some ['c'], n_snps_to_insert := 12, default_id := none } []
      (by decide),
    by decide, by decide, by decide⟩

end Makesnps
